import Mathlib

/-!
Verification of the CETEIcean TEI-to-HTML conversion library.

Strings are modelled as `List Char` (`Str`).  JavaScript string methods are
embedded as executable Lean functions: `String.prototype.replace` with a
non-global literal pattern becomes `replaceFirstL` (first occurrence only),
`toLowerCase`/`toUpperCase` become `strLower`/`strUpper` (ASCII, matching the
basic-latin behaviour of the JS methods on the names occurring here).
-/

abbrev Str := List Char

def strLower (s : Str) : Str := s.map Char.toLower

def strUpper (s : Str) : Str := s.map Char.toUpper

/-- Replace the first occurrence of `pat` in the subject by `rep`
(JS `subject.replace(pat, rep)` with a non-global pattern and a
replacement free of `$`-escapes). -/
def replaceFirstL (pat rep : Str) : Str → Str
  | [] => if pat.isPrefixOf [] then rep else []
  | c :: cs =>
    if pat.isPrefixOf (c :: cs) then rep ++ (c :: cs).drop pat.length
    else c :: replaceFirstL pat rep cs

/-- Number of positions of `s` at which `pat` occurs (occurrences may overlap). -/
def occCount (pat : Str) : Str → Nat
  | [] => if pat.isPrefixOf [] then 1 else 0
  | c :: cs => (if pat.isPrefixOf (c :: cs) then 1 else 0) + occCount pat cs

/- ### Generic occurrence lemmas -/

theorem occCount_cons_le (q : Str) (c : Char) (t : Str) :
    occCount q t ≤ occCount q (c :: t) := by
  simp only [occCount]
  omega

theorem occCount_append_le (q u t : Str) : occCount q t ≤ occCount q (u ++ t) := by
  induction u with
  | nil => simp
  | cons c u ih =>
      simp only [List.cons_append]
      exact le_trans ih (occCount_cons_le q c (u ++ t))

/-- Occurrence counting splits off the head position. -/
theorem occCount_eq (q s : Str) (hs : s ≠ []) :
    occCount q s = (if q.isPrefixOf s then 1 else 0) + occCount q s.tail := by
  cases s with
  | nil => exact absurd rfl hs
  | cons c cs => rfl

/-- If no occurrence of `q` begins inside the prefix `u`, the count over
`u ++ t` equals the count over `t`. -/
theorem occCount_append_eq (q u t : Str)
    (h : ∀ j, j < u.length → ¬ q.isPrefixOf (u.drop j ++ t)) :
    occCount q (u ++ t) = occCount q t := by
  induction u with
  | nil => simp
  | cons c u ih =>
      have h0 : ¬ q.isPrefixOf ((c :: u) ++ t) := by
        have := h 0 (by simp)
        simpa using this
      have hstep : occCount q ((c :: u) ++ t) = occCount q (u ++ t) := by
        rw [occCount_eq q ((c :: u) ++ t) (by simp), if_neg (by simpa using h0)]
        simp
      rw [hstep]
      refine ih ?_
      intro j hj
      have := h (j + 1) (by simpa using Nat.succ_lt_succ hj)
      simpa using this

theorem prefix_of_isPrefixOf {p s : Str} (h : p.isPrefixOf s) : ∃ t, s = p ++ t := by
  obtain ⟨t, ht⟩ := List.isPrefixOf_iff_prefix.mp h
  exact ⟨t, ht.symm⟩

/- ### Self-overlap-free patterns: replacing one occurrence removes exactly it -/

/-- No nonempty proper suffix of `pat` is a prefix of `pat`; consequently
occurrences of `pat` in any string never overlap. -/
def noSelfOverlap (pat : Str) : Prop :=
  ∀ i, i < pat.length → 0 < i → ¬ (pat.drop i) <+: pat

instance (pat : Str) : Decidable (noSelfOverlap pat) := by
  unfold noSelfOverlap
  infer_instance

theorem no_occ_in_proper_suffix {pat t : Str} (hov : noSelfOverlap pat)
    (j : Nat) (h0 : 0 < j) (hj : j < pat.length) :
    ¬ pat.isPrefixOf (pat.drop j ++ t) := by
  intro hpre
  have hp : pat <+: pat.drop j ++ t := List.isPrefixOf_iff_prefix.mp hpre
  have hdp : pat.drop j <+: pat.drop j ++ t := List.prefix_append _ _
  have : pat.drop j <+: pat := by
    refine List.prefix_of_prefix_length_le hdp hp ?_
    simp [List.length_drop]
  exact hov j hj h0 this

theorem occCount_self_cons (pat t : Str) (hov : noSelfOverlap pat) (hne : pat ≠ []) :
    occCount pat (pat ++ t) = 1 + occCount pat t := by
  cases hp : pat with
  | nil => exact absurd hp hne
  | cons p0 ps =>
      rw [← hp]
      have hpre : pat.isPrefixOf (pat ++ t) := by
        exact List.isPrefixOf_iff_prefix.mpr (List.prefix_append _ _)
      have hs : pat ++ t ≠ [] := by
        simp [hp]
      rw [occCount_eq pat (pat ++ t) hs, if_pos hpre]
      have htail : (pat ++ t).tail = pat.drop 1 ++ t := by
        simp [hp]
      rw [htail]
      have : occCount pat (pat.drop 1 ++ t) = occCount pat t := by
        refine occCount_append_eq pat (pat.drop 1) t ?_
        intro j hj
        have hlen : j + 1 < pat.length := by
          have := hj
          simp [List.length_drop] at this
          omega
        have := no_occ_in_proper_suffix (t := t) hov (j + 1) (by omega) hlen
        simpa [List.drop_drop] using this
      omega

/-- Replacing the first occurrence of a self-overlap-free pattern removes at
most one occurrence: all the others survive. -/
theorem occCount_replaceFirst_self (pat rep s : Str)
    (hov : noSelfOverlap pat) (hne : pat ≠ []) :
    occCount pat s - 1 ≤ occCount pat (replaceFirstL pat rep s) := by
  induction s with
  | nil =>
      cases hp : pat with
      | nil => exact absurd hp hne
      | cons p ps => simp [occCount, replaceFirstL, List.isPrefixOf, hp]
  | cons c cs ih =>
      by_cases hp : pat.isPrefixOf (c :: cs)
      · obtain ⟨t, ht⟩ := prefix_of_isPrefixOf hp
        rw [replaceFirstL, if_pos hp, ht, List.drop_left]
        have h1 : occCount pat (pat ++ t) = 1 + occCount pat t :=
          occCount_self_cons pat t hov hne
        have h2 : occCount pat t ≤ occCount pat (rep ++ t) := occCount_append_le _ _ _
        omega
      · rw [replaceFirstL, if_neg hp]
        have hcount : occCount pat (c :: cs) = occCount pat cs := by
          rw [occCount_eq pat (c :: cs) (by simp), if_neg hp]
          simp
        have h2 := occCount_cons_le pat c (replaceFirstL pat rep cs)
        omega

/- ### Cross-pattern preservation -/

/-- Patterns `p` and `q` can never overlap in any subject string: no suffix of
either is a prefix of the other, and neither occurs inside the other. -/
def noCross (p q : Str) : Prop :=
  (∀ j, j < p.length → ¬ q <+: (p.drop j) ∧ ¬ (p.drop j) <+: q) ∧
  (∀ j, j < q.length → ¬ p <+: (q.drop j) ∧ ¬ (q.drop j) <+: p)


instance (p q : Str) : Decidable (noCross p q) := by
  unfold noCross
  infer_instance

theorem no_cross_occ {p q t : Str} (hc : noCross p q)
    (j : Nat) (hj : j < p.length) : ¬ q.isPrefixOf (p.drop j ++ t) := by
  intro hpre
  have hq : q <+: p.drop j ++ t := List.isPrefixOf_iff_prefix.mp hpre
  have hdp : p.drop j <+: p.drop j ++ t := List.prefix_append _ _
  by_cases hlen : q.length ≤ (p.drop j).length
  · have : q <+: p.drop j := List.prefix_of_prefix_length_le hq hdp hlen
    exact (hc.1 j hj).1 this
  · have : p.drop j <+: q := List.prefix_of_prefix_length_le hdp hq (by omega)
    exact (hc.1 j hj).2 this

theorem no_cross_occ' {p q t : Str} (hc : noCross p q)
    (j : Nat) (hj : j < q.length) : ¬ p.isPrefixOf (q.drop j ++ t) := by
  intro hpre
  have hq : p <+: q.drop j ++ t := List.isPrefixOf_iff_prefix.mp hpre
  have hdp : q.drop j <+: q.drop j ++ t := List.prefix_append _ _
  by_cases hlen : p.length ≤ (q.drop j).length
  · have : p <+: q.drop j := List.prefix_of_prefix_length_le hq hdp hlen
    exact (hc.2 j hj).1 this
  · have : q.drop j <+: p := List.prefix_of_prefix_length_le hdp hq (by omega)
    exact (hc.2 j hj).2 this

/-- A prefix of the subject that starts before every occurrence of `p`
survives `replaceFirstL p rep` unchanged. -/
theorem isPrefixOf_replaceFirst (p rep : Str) :
    ∀ (q s : Str), q.isPrefixOf s →
      (∀ i, i < q.length → ¬ p.isPrefixOf (s.drop i)) →
      q.isPrefixOf (replaceFirstL p rep s) := by
  intro q
  induction q with
  | nil => intro s _ _; simp [List.isPrefixOf]
  | cons d q ih =>
      intro s hq hno
      cases s with
      | nil => simp [List.isPrefixOf] at hq
      | cons c cs =>
          have hp0 : ¬ p.isPrefixOf (c :: cs) := by
            have := hno 0 (by simp)
            simpa using this
          rw [replaceFirstL, if_neg hp0]
          simp only [List.isPrefixOf, Bool.and_eq_true, beq_iff_eq] at hq ⊢
          refine ⟨hq.1, ih cs hq.2 ?_⟩
          intro i hi
          have := hno (i + 1) (by simp; omega)
          simpa using this

/-- Replacing the first occurrence of `p` never destroys occurrences of a
non-overlapping pattern `q`. -/
theorem occCount_replaceFirst_cross (p rep q : Str) (hc : noCross p q)
    (hpne : p ≠ []) :
    ∀ s, occCount q s ≤ occCount q (replaceFirstL p rep s) := by
  intro s
  induction s with
  | nil =>
      cases hp : p with
      | nil => exact absurd hp hpne
      | cons a as => simp [replaceFirstL, List.isPrefixOf, hp]
  | cons c cs ih =>
      by_cases hp : p.isPrefixOf (c :: cs)
      · obtain ⟨t, ht⟩ := prefix_of_isPrefixOf hp
        rw [replaceFirstL, if_pos hp, ht, List.drop_left]
        have h1 : occCount q (p ++ t) = occCount q t :=
          occCount_append_eq q p t (fun j hj => no_cross_occ hc j hj)
        have h2 : occCount q t ≤ occCount q (rep ++ t) := occCount_append_le _ _ _
        omega
      · rw [replaceFirstL, if_neg hp]
        by_cases hq : q.isPrefixOf (c :: cs)
        · have hnocc : ∀ i, i < q.length → ¬ p.isPrefixOf ((c :: cs).drop i) := by
            intro i hi
            obtain ⟨t, ht⟩ := prefix_of_isPrefixOf hq
            rw [ht, List.drop_append_of_le_length (by omega)]
            exact no_cross_occ' hc i hi
          have hqpres : q.isPrefixOf (c :: replaceFirstL p rep cs) := by
            have hrw : replaceFirstL p rep (c :: cs) = c :: replaceFirstL p rep cs := by
              rw [replaceFirstL, if_neg hp]
            rw [← hrw]
            exact isPrefixOf_replaceFirst p rep q (c :: cs) hq hnocc
          have e1 : occCount q (c :: cs) = 1 + occCount q cs := by
            rw [occCount_eq q (c :: cs) (by simp), if_pos hq]
            simp
          have e2 : occCount q (c :: replaceFirstL p rep cs)
              = 1 + occCount q (replaceFirstL p rep cs) := by
            rw [occCount_eq q (c :: replaceFirstL p rep cs) (by simp), if_pos hqpres]
            simp
          omega
        · have e1 : occCount q (c :: cs) = occCount q cs := by
            rw [occCount_eq q (c :: cs) (by simp), if_neg hq]
            simp
          have h2 := occCount_cons_le q c (replaceFirstL p rep cs)
          omega

/- ### The four XML entities handled by `unEscapeEntities` -/

def entGt : Str := "&gt;".toList
def entQuot : Str := "&quot;".toList
def entApos : Str := "&apos;".toList
def entAmp : Str := "&amp;".toList

/-- Embedding of `unEscapeEntities` (src/utilities.ts): four successive
`String.replace` calls with non-global literal regexes, so each call replaces
only the first occurrence of its entity. -/
def unEscapeEntities (s : Str) : Str :=
  replaceFirstL entAmp "&".toList
    (replaceFirstL entApos "'".toList
      (replaceFirstL entQuot "\"".toList
        (replaceFirstL entGt ">".toList s)))

/-- Claim C10: `unEscapeEntities` replaces only the first occurrence of each of
the four entities.  For each entity, at most one occurrence is removed over the
whole pipeline (so a string with two occurrences of the same entity keeps the
second occurrence escaped), and on a doubled entity exactly the first
occurrence is unescaped. -/
theorem c10_unEscapeEntities_first_occurrence_only :
    (∀ s : Str,
      occCount entGt s - 1 ≤ occCount entGt (unEscapeEntities s) ∧
      occCount entQuot s - 1 ≤ occCount entQuot (unEscapeEntities s) ∧
      occCount entApos s - 1 ≤ occCount entApos (unEscapeEntities s) ∧
      occCount entAmp s - 1 ≤ occCount entAmp (unEscapeEntities s)) ∧
    unEscapeEntities "&gt;&gt;".toList = ">&gt;".toList ∧
    unEscapeEntities "&quot;&quot;".toList = "\"&quot;".toList ∧
    unEscapeEntities "&apos;&apos;".toList = "'&apos;".toList ∧
    unEscapeEntities "&amp;&amp;".toList = "&&amp;".toList := by
  have hovGt : noSelfOverlap entGt := by decide
  have hovQuot : noSelfOverlap entQuot := by decide
  have hovApos : noSelfOverlap entApos := by decide
  have hovAmp : noSelfOverlap entAmp := by decide
  refine ⟨fun s => ⟨?_, ?_, ?_, ?_⟩, by decide, by decide, by decide, by decide⟩
  · have h1 := occCount_replaceFirst_self entGt ">".toList s hovGt (by decide)
    have h2 := occCount_replaceFirst_cross entQuot "\"".toList entGt (by decide) (by decide)
      (replaceFirstL entGt ">".toList s)
    have h3 := occCount_replaceFirst_cross entApos "'".toList entGt (by decide) (by decide)
      (replaceFirstL entQuot "\"".toList (replaceFirstL entGt ">".toList s))
    have h4 := occCount_replaceFirst_cross entAmp "&".toList entGt (by decide) (by decide)
      (replaceFirstL entApos "'".toList
        (replaceFirstL entQuot "\"".toList (replaceFirstL entGt ">".toList s)))
    unfold unEscapeEntities
    omega
  · have h1 := occCount_replaceFirst_cross entGt ">".toList entQuot (by decide) (by decide) s
    have h2 := occCount_replaceFirst_self entQuot "\"".toList
      (replaceFirstL entGt ">".toList s) hovQuot (by decide)
    have h3 := occCount_replaceFirst_cross entApos "'".toList entQuot (by decide) (by decide)
      (replaceFirstL entQuot "\"".toList (replaceFirstL entGt ">".toList s))
    have h4 := occCount_replaceFirst_cross entAmp "&".toList entQuot (by decide) (by decide)
      (replaceFirstL entApos "'".toList
        (replaceFirstL entQuot "\"".toList (replaceFirstL entGt ">".toList s)))
    unfold unEscapeEntities
    omega
  · have h1 := occCount_replaceFirst_cross entGt ">".toList entApos (by decide) (by decide) s
    have h2 := occCount_replaceFirst_cross entQuot "\"".toList entApos (by decide) (by decide)
      (replaceFirstL entGt ">".toList s)
    have h3 := occCount_replaceFirst_self entApos "'".toList
      (replaceFirstL entQuot "\"".toList (replaceFirstL entGt ">".toList s)) hovApos (by decide)
    have h4 := occCount_replaceFirst_cross entAmp "&".toList entApos (by decide) (by decide)
      (replaceFirstL entApos "'".toList
        (replaceFirstL entQuot "\"".toList (replaceFirstL entGt ">".toList s)))
    unfold unEscapeEntities
    omega
  · have h1 := occCount_replaceFirst_cross entGt ">".toList entAmp (by decide) (by decide) s
    have h2 := occCount_replaceFirst_cross entQuot "\"".toList entAmp (by decide) (by decide)
      (replaceFirstL entGt ">".toList s)
    have h3 := occCount_replaceFirst_cross entApos "'".toList entAmp (by decide) (by decide)
      (replaceFirstL entQuot "\"".toList (replaceFirstL entGt ">".toList s))
    have h4 := occCount_replaceFirst_self entAmp "&".toList
      (replaceFirstL entApos "'".toList
        (replaceFirstL entQuot "\"".toList (replaceFirstL entGt ">".toList s))) hovAmp (by decide)
    unfold unEscapeEntities
    omega

/- ### tagName (src/utilities.ts) -/

/-- Embedding of `tagName`.  The JS guard is `(name.includes(":"), 1)`: a comma
expression that evaluates and discards the `includes` test and yields the
constant `1`, which is always truthy.  The pair below keeps both components;
the branch is taken on the truthiness of the second. -/
def tagName (name : Str) : Str :=
  let jsGuard := (name.contains ':', 1)
  if jsGuard.2 ≠ 0 then strLower (replaceFirstL [':'] ['-'] name)
  else "ceteicean-".toList ++ strLower name

/-- Claim C5: contrary to the spec, a name without a colon does NOT get the
synthetic `ceteicean-` fallback: the always-true comma-operator guard sends
every name through the colon-replacement branch, so `tagName "text"` is
`"text"`, not `"ceteicean-text"`.  Names with a colon behave as specified. -/
theorem c5_tagName_fallback_branch_dead :
    tagName "text".toList = "text".toList ∧
    tagName "text".toList ≠ "ceteicean-text".toList ∧
    tagName "tei:text".toList = "tei-text".toList ∧
    tagName "TEI:Text".toList = "tei-text".toList := by
  refine ⟨by decide, by decide, by decide, by decide⟩

/- ### decorator (src/CETEI.ts): selector-rule dispatch -/

/-- Behavior definitions: a plain transformer function (modelled as an opaque
action token), a string template, or an ordered selector-rule list whose
actions may recursively be any definition shape. -/
inductive BDef (α : Type) where
  | fn : α → BDef α
  | tmpl : List Str → BDef α
  | rules : List (Str × BDef α) → BDef α

/-- What a compiled behavior did when invoked on an element. -/
inductive Applied (α : Type) where
  | action : α → Applied α
  | template : List Str → Applied α

mutual
/-- Embedding of `decorator` + invocation (src/CETEI.ts).  `elmMatches e sel`
models `elt.matches(sel)`.  A function definition is invoked directly; a
template is handed to `applyDecorator`; a rule list is scanned in order and
the first pair whose selector matches (or is the wildcard) has its action
compiled and invoked, with `none` when nothing matches (the compiled
transformer falls through, or the empty-array no-op was produced). -/
def decoratorRun {E α : Type} (elmMatches : E → Str → Bool) :
    BDef α → E → Option (Applied α)
  | .fn a, _e => some (.action a)
  | .tmpl ss, _e => match ss with
    | [] => none
    | _ :: _ => some (.template ss)
  | .rules rs, e => rulesApply elmMatches rs e

/-- Scan of the `for (const [selector, action] of rules)` loop. -/
def rulesApply {E α : Type} (elmMatches : E → Str → Bool) :
    List (Str × BDef α) → E → Option (Applied α)
  | [], _e => none
  | (sel, act) :: rest, e =>
    if elmMatches e sel || sel == "_".toList then decoratorRun elmMatches act e
    else rulesApply elmMatches rest e
end

/-- Claim C6: rules are tested in order; the first rule whose selector matches
(with `_` matching everything) has its action executed and no later rule runs;
with no match and no wildcard the transformer is a no-op; and on
`[(S1,A1),(S2,A2),("_",A3)]` an element matching S1 executes A1 only while an
element matching neither S1 nor S2 executes A3. -/
theorem c6_decorator_first_match_wins {E α : Type} (elmMatches : E → Str → Bool) :
    (∀ (rs : List (Str × BDef α)) (e : E),
      (∀ r ∈ rs, elmMatches e r.1 = false ∧ r.1 ≠ "_".toList) →
      decoratorRun elmMatches (.rules rs) e = none) ∧
    (∀ (rs1 : List (Str × BDef α)) (sel : Str) (act : BDef α)
        (rs2 : List (Str × BDef α)) (e : E),
      (∀ r ∈ rs1, elmMatches e r.1 = false ∧ r.1 ≠ "_".toList) →
      (elmMatches e sel = true ∨ sel = "_".toList) →
      decoratorRun elmMatches (.rules (rs1 ++ (sel, act) :: rs2)) e
        = decoratorRun elmMatches act e) ∧
    (∀ (s1 s2 : Str) (a1 a2 a3 : α) (e : E),
      elmMatches e s1 = true →
      decoratorRun elmMatches
          (.rules [(s1, .fn a1), (s2, .fn a2), ("_".toList, .fn a3)]) e
        = some (.action a1)) ∧
    (∀ (s1 s2 : Str) (a1 a2 a3 : α) (e : E),
      elmMatches e s1 = false → elmMatches e s2 = false →
      s1 ≠ "_".toList → s2 ≠ "_".toList →
      decoratorRun elmMatches
          (.rules [(s1, .fn a1), (s2, .fn a2), ("_".toList, .fn a3)]) e
        = some (.action a3)) := by
  have hnone : ∀ (rs : List (Str × BDef α)) (e : E),
      (∀ r ∈ rs, elmMatches e r.1 = false ∧ r.1 ≠ "_".toList) →
      rulesApply elmMatches rs e = none := by
    intro rs e h
    induction rs with
    | nil => rfl
    | cons r rest ih =>
        obtain ⟨sel, act⟩ := r
        have hr := h (sel, act) (by simp)
        rw [rulesApply, if_neg ?_]
        · exact ih (fun r hr' => h r (by simp [hr']))
        · simp only [Bool.or_eq_true, beq_iff_eq]
          push_neg
          exact ⟨by simpa using hr.1, by simpa using hr.2⟩
  have hfirst : ∀ (rs1 : List (Str × BDef α)) (sel : Str) (act : BDef α)
      (rs2 : List (Str × BDef α)) (e : E),
      (∀ r ∈ rs1, elmMatches e r.1 = false ∧ r.1 ≠ "_".toList) →
      (elmMatches e sel = true ∨ sel = "_".toList) →
      rulesApply elmMatches (rs1 ++ (sel, act) :: rs2) e
        = decoratorRun elmMatches act e := by
    intro rs1 sel act rs2 e h hm
    induction rs1 with
    | nil =>
        simp only [List.nil_append]
        rw [rulesApply, if_pos ?_]
        simp only [Bool.or_eq_true, beq_iff_eq]
        exact hm
    | cons r rest ih =>
        obtain ⟨sel', act'⟩ := r
        have hr := h (sel', act') (by simp)
        simp only [List.cons_append]
        rw [rulesApply, if_neg ?_]
        · exact ih (fun r hr' => h r (by simp [hr']))
        · simp only [Bool.or_eq_true, beq_iff_eq]
          push_neg
          exact ⟨by simpa using hr.1, by simpa using hr.2⟩
  refine ⟨fun rs e h => hnone rs e h, fun rs1 sel act rs2 e h hm => hfirst rs1 sel act rs2 e h hm, ?_, ?_⟩
  · intro s1 s2 a1 a2 a3 e h1
    have := hfirst [] s1 (.fn a1) [(s2, .fn a2), ("_".toList, .fn a3)] e (by simp) (Or.inl h1)
    simpa [decoratorRun] using this
  · intro s1 s2 a1 a2 a3 e h1 h2 hs1 hs2
    have := hfirst [(s1, .fn a1), (s2, .fn a2)] "_".toList (.fn a3) [] e ?_ (Or.inr rfl)
    · simpa [decoratorRun] using this
    · intro r hr
      simp only [List.mem_cons, List.not_mem_nil, or_false] at hr
      rcases hr with hr | hr
      · subst hr
        exact ⟨h1, hs1⟩
      · subst hr
        exact ⟨h2, hs2⟩

/-- Witness for C6: the first rule matches, its action alone is executed. -/
theorem c6_decorator_first_match_wins_witness :
    decoratorRun (fun (_ : Nat) (sel : Str) => sel == "a".toList)
        (.rules [("a".toList, .fn (1 : Nat)), ("b".toList, .fn 2), ("_".toList, .fn 3)]) 0
      = some (.action 1) :=
  (c6_decorator_first_match_wins (fun (_ : Nat) (sel : Str) => sel == "a".toList)).2.2.1
    "a".toList "b".toList 1 2 3 0 (by decide)

/- ### Processed-flag state machine (append / fallback / custom elements) -/

/-- Abstract state of one converted element for the activation paths: whether
`data-processed` is present, and how many times its behavior function has
actually run. -/
structure PElem where
  processed : Bool
  runs : Nat
deriving DecidableEq

/-- Embedding of the `process` closure inside `append` (src/CETEI.ts):
returns immediately when `data-processed` is present, otherwise invokes the
behavior (and appends any returned content).  It does not itself set
`data-processed` on the element. -/
def appendProcess (e : PElem) : PElem :=
  if e.processed then e else { e with runs := e.runs + 1 }

/-- Embedding of one element's treatment by `fallback` (src/CETEI.ts): guarded
by `data-processed`, applies the behavior through `append`, then sets the
flag. -/
def fallbackStep (e : PElem) : PElem :=
  if e.processed then e else { appendProcess e with processed := true }

/-- Embedding of `connectedCallback` in `defineCustomElement`
(src/utilities.ts), for a non-null behavior: guarded by `data-processed`,
invokes the handler, then sets the flag. -/
def connectedStep (e : PElem) : PElem :=
  if e.processed then e else { appendProcess e with processed := true }

/-- Embedding of the custom-element constructor in `defineCustomElement`
(src/utilities.ts), for a non-null behavior: guarded by `matches(":defined")`
(not by the flag — the handler itself re-checks), then sets the flag. -/
def constructorStep (definedMatch : Bool) (e : PElem) : PElem :=
  if definedMatch then e else { appendProcess e with processed := true }

/-- Embedding of the per-element part of `processElement` (src/CETEI.ts):
requires `data-origname`, absence of `data-processed` and a resolvable
behavior, then applies it via `append` and sets the flag. -/
def processElementStep (hasOrig fnExists : Bool) (e : PElem) : PElem :=
  if hasOrig && !e.processed then
    if fnExists then { appendProcess e with processed := true } else e
  else e

/-- Counterexample to claim C2: a direct `append` invocation checks the flag
but never sets it, so applying the compiled behavior twice through `append`
runs the behavior twice — the second application is not a no-op and
`data-processed` is still absent after the first application. -/
theorem c2_counterexample_direct_append_reapplies :
    appendProcess (appendProcess ⟨false, 0⟩) = ⟨false, 2⟩ ∧
    (appendProcess ⟨false, 0⟩).processed = false ∧
    appendProcess (appendProcess ⟨false, 0⟩) ≠ appendProcess ⟨false, 0⟩ := by
  refine ⟨by decide, by decide, by decide⟩

/-- Claim C2 (amended): every application path checks `data-processed` before
running the behavior (the shared `append` gate is a no-op on flagged
elements); the fallback traversal, `connectedCallback`, the constructor (for
newly-created elements) and `processElement` do set the flag afterwards and
are therefore idempotent; but the direct `append` invocation path does not set
the flag itself. -/
theorem c2_processed_flag_idempotence :
    (∀ e : PElem, e.processed = true → appendProcess e = e) ∧
    (∀ e : PElem, (appendProcess e).processed = e.processed) ∧
    (∀ e : PElem, (fallbackStep e).processed = true) ∧
    (∀ e : PElem, fallbackStep (fallbackStep e) = fallbackStep e) ∧
    (∀ e : PElem, connectedStep (connectedStep e) = connectedStep e) ∧
    (∀ e : PElem, connectedStep (constructorStep false e) = constructorStep false e) ∧
    (∀ (h f : Bool) (e : PElem),
      processElementStep h f (processElementStep h f e) = processElementStep h f e) := by
  refine ⟨?_, ?_, ?_, ?_, ?_, ?_, ?_⟩
  · intro e he
    simp [appendProcess, he]
  · intro e
    by_cases he : e.processed <;> simp [appendProcess, he]
  · intro e
    by_cases he : e.processed <;> simp [fallbackStep, he]
  · intro e
    by_cases he : e.processed <;> simp [fallbackStep, he]
  · intro e
    by_cases he : e.processed <;> simp [connectedStep, he]
  · intro e
    simp [connectedStep, constructorStep]
  · intro h f e
    by_cases he : e.processed
    · simp [processElementStep, he]
    · cases h <;> cases f <;> simp [processElementStep, appendProcess, he]

/-- Witness for C2 (amended): a flagged element passes through `append`
untouched, and the fallback path is idempotent on a fresh element. -/
theorem c2_processed_flag_idempotence_witness :
    appendProcess ⟨true, 3⟩ = ⟨true, 3⟩ ∧
    fallbackStep (fallbackStep ⟨false, 0⟩) = fallbackStep ⟨false, 0⟩ :=
  ⟨c2_processed_flag_idempotence.1 ⟨true, 3⟩ (by decide),
   c2_processed_flag_idempotence.2.2.2.1 ⟨false, 0⟩⟩

/- ### Endnote behavior (defaultBehaviors.ts, note with place=end) -/

/-- Environment the endnote behavior runs in: whether `ol.notes` already
exists in the document, whether the utilities `dom` root is available, and
the current `noteIndex`. -/
structure NoteEnv where
  existingNotesList : Bool
  domRoot : Option Unit
  noteIndex : Option Nat
deriving DecidableEq

/-- Observable outcome of a successful endnote application. -/
structure NoteResult where
  index : Nat
  srcLinkId : Str
  noteId : Str
  newListAppended : Bool
deriving DecidableEq

/-- Embedding of the `note` behavior for `[place=end]` (src/defaultBehaviors.ts):
increments `noteIndex`, builds the numbered back-link content, reuses an
existing `ol.notes` list or creates one and appends it to `this.dom`, throwing
when that root is unavailable. -/
def noteEndBehavior (env : NoteEnv) : Except Str NoteResult :=
  let idx := env.noteIndex.getD 0 + 1
  let noteId := "_note_".toList ++ (toString idx).toList
  if env.existingNotesList then
    .ok ⟨idx, "src".toList ++ noteId, noteId, false⟩
  else
    match env.domRoot with
    | none => .error "CETEI utilities DOM root is unavailable.".toList
    | some _ => .ok ⟨idx, "src".toList ++ noteId, noteId, true⟩

/-- Claim C9: the endnote behavior raises an explicit error precisely when it
has to create and append the notes-list container and no renderable root is
available; whenever a root is available (or the list already exists) no error
is raised. -/
theorem c9_note_end_error_iff_no_root :
    ∀ env : NoteEnv,
      (∃ msg, noteEndBehavior env = .error msg) ↔
        env.existingNotesList = false ∧ env.domRoot = none := by
  intro env
  unfold noteEndBehavior
  rcases env with ⟨ex, dom, idx⟩
  cases ex <;> cases dom <;> simp

/- ### Source XML tree -/

/-- A node of the parsed source XML document.  `ns` is `namespaceURI`
(`none` for no namespace), `name` the local name.  Source elements are
modelled without qualified-name prefixes. -/
inductive XNode where
  | elem (ns : Option Str) (name : Str) (attrs : List (Str × Str)) (children : List XNode)
  | text (s : Str)
  | comment (s : Str)
  | procInst (target : Str) (value : Str)

mutual
/-- Element descendants of a node in document (pre-)order: the result of
`root.querySelectorAll("*")` (the root itself excluded). -/
def descendantElems : XNode → List XNode
  | .elem _ _ _ cs => descElemList cs
  | _ => []

def descElemList : List XNode → List XNode
  | [] => []
  | c :: rest =>
    (match c with
     | .elem ns nm atts cs => .elem ns nm atts cs :: descendantElems (.elem ns nm atts cs)
     | _ => []) ++ descElemList rest
end

/-- JS `e.namespaceURI ?? ""`. -/
def nsKeyOf : XNode → Str
  | .elem ns _ _ _ => ns.getD []
  | _ => []

def localNameOf : XNode → Str
  | .elem _ nm _ _ => nm
  | _ => []

/-- Assoc-list primitives for the JS `Map`/object fields (insertion order is
significant, as in JS).  Lookup returns the first binding for the key. -/
def lookupA {β : Type} : List (Str × β) → Str → Option β
  | [], _ => none
  | p :: ps, k => if p.1 == k then some p.2 else lookupA ps k

def containsKey {β : Type} : List (Str × β) → Str → Bool
  | [], _ => false
  | p :: ps, k => p.1 == k || containsKey ps k

/-- JS `Map.prototype.set` / object property assignment: an existing key keeps
its position and gets the new value, a new key is appended. -/
def setA {β : Type} (l : List (Str × β)) (k : Str) (v : β) : List (Str × β) :=
  if containsKey l k then l.map (fun p => if p.1 == k then (k, v) else p)
  else l ++ [(k, v)]

/-- One element's namespace handling inside `qname` (src/dom.ts): a namespace
not yet in the map is registered under the synthetic prefix `ns<i>` and the
counter is incremented. -/
def qnameNsStep (st : List (Str × Str) × Nat) (key : Str) : List (Str × Str) × Nat :=
  if containsKey st.1 key then st
  else (st.1 ++ [(key, "ns".toList ++ (toString st.2).toList)], st.2 + 1)

/-- The namespace-map effect of mapping `qname` over a sequence of namespace
keys. -/
def nsFold (st : List (Str × Str) × Nat) : List Str → List (Str × Str) × Nat
  | [] => st
  | k :: ks => nsFold (qnameNsStep st k) ks

/-- Insertion-ordered deduplication: the contents of a JS `Set` built by
inserting the elements of the list left to right. -/
def firstDedupAux {α : Type} [DecidableEq α] (seen : List α) : List α → List α
  | [] => []
  | a :: as => if a ∈ seen then firstDedupAux seen as
               else a :: firstDedupAux (a :: seen) as

def firstDedup {α : Type} [DecidableEq α] (l : List α) : List α :=
  firstDedupAux [] l

/-- Threading `qname` (src/dom.ts) over a node sequence: each element first
ensures its namespace key is registered (assigning the next synthetic prefix
if not), then produces `prefix:localName`. -/
def qnameFold (st : List (Str × Str) × Nat) :
    List XNode → List Str × (List (Str × Str) × Nat)
  | [] => ([], st)
  | e :: rest =>
      let st' := qnameNsStep st (nsKeyOf e)
      let qn := ((lookupA st'.1 (nsKeyOf e)).getD []) ++ ':' :: localNameOf e
      let pr := qnameFold st' rest
      (qn :: pr.1, pr.2)

/-- Embedding of `learnElementNames` (src/dom.ts): `qname` is mapped over
`root.querySelectorAll("*")` in document order and then applied to the root
itself (`els.add(qname(root))` runs last), mutating the shared namespace map;
the distinct qualified names are returned together with the final map and
counter (the counter `i` always starts at 1). -/
def learnElementNames (root : XNode) (namespaces : List (Str × Str)) :
    List Str × (List (Str × Str) × Nat) :=
  let pr := qnameFold (namespaces, 1) (descendantElems root ++ [root])
  (firstDedup pr.1, pr.2)

/-- Synthetic prefixes `ns<i>`, `ns<i+1>`, … paired with the given keys. -/
def enumFromPfx (i : Nat) : List Str → List (Str × Str)
  | [] => []
  | k :: ks => (k, "ns".toList ++ (toString i).toList) :: enumFromPfx (i + 1) ks

theorem firstDedupAux_congr {α : Type} [DecidableEq α] :
    ∀ (l s1 s2 : List α), (∀ a, a ∈ s1 ↔ a ∈ s2) →
      firstDedupAux s1 l = firstDedupAux s2 l := by
  intro l
  induction l with
  | nil => intro s1 s2 _; rfl
  | cons a as ih =>
      intro s1 s2 h
      by_cases ha : a ∈ s1
      · rw [firstDedupAux, if_pos ha, firstDedupAux, if_pos ((h a).mp ha)]
        exact ih s1 s2 h
      · rw [firstDedupAux, if_neg ha, firstDedupAux, if_neg (fun hx => ha ((h a).mpr hx))]
        rw [ih (a :: s1) (a :: s2) (fun b => by simp [h b])]

theorem containsKey_iff_mem_keys {β : Type} (m : List (Str × β)) (k : Str) :
    containsKey m k = true ↔ k ∈ m.map Prod.fst := by
  induction m with
  | nil => simp [containsKey]
  | cons p ps ih =>
      have hcons : containsKey (p :: ps) k = ((p.1 == k) || containsKey ps k) := rfl
      rw [hcons]
      simp only [Bool.or_eq_true, beq_iff_eq, List.map_cons, List.mem_cons, ih]
      constructor
      · rintro (h | h)
        · exact Or.inl h.symm
        · exact Or.inr h
      · rintro (h | h)
        · exact Or.inl h.symm
        · exact Or.inr h

/-- Characterisation of the namespace-map effect: starting from map `m` and
counter `i`, the new namespaces are exactly the first-encounter-deduplicated
keys not already present, appended in encounter order with strictly
increasing synthetic suffixes `i`, `i+1`, …. -/
theorem nsFold_spec :
    ∀ (keys : List Str) (m : List (Str × Str)) (i : Nat),
      nsFold (m, i) keys
        = (m ++ enumFromPfx i (firstDedupAux (m.map Prod.fst) keys),
           i + (firstDedupAux (m.map Prod.fst) keys).length) := by
  intro keys
  induction keys with
  | nil => intro m i; simp [nsFold, firstDedupAux, enumFromPfx]
  | cons k ks ih =>
      intro m i
      by_cases hk : containsKey m k
      · have hmem : k ∈ m.map Prod.fst := (containsKey_iff_mem_keys m k).mp hk
        rw [nsFold]
        have hstep : qnameNsStep (m, i) k = (m, i) := by
          simp [qnameNsStep, hk]
        rw [hstep, ih m i, firstDedupAux, if_pos hmem]
      · have hmem : k ∉ m.map Prod.fst := fun hx => hk ((containsKey_iff_mem_keys m k).mpr hx)
        rw [nsFold]
        have hstep : qnameNsStep (m, i) k
            = (m ++ [(k, "ns".toList ++ (toString i).toList)], i + 1) := by
          simp [qnameNsStep, hk]
        rw [hstep, ih _ _, firstDedupAux, if_neg hmem]
        have hkeys : (m ++ [(k, "ns".toList ++ (toString i).toList)]).map Prod.fst
            = m.map Prod.fst ++ [k] := by simp
        rw [hkeys]
        rw [firstDedupAux_congr ks (m.map Prod.fst ++ [k]) (k :: m.map Prod.fst)
          (fun b => by simp [or_comm])]
        rw [enumFromPfx, Prod.mk.injEq]
        refine ⟨by simp, by simp [List.length_cons]; omega⟩

theorem qnameFold_state_eq :
    ∀ (es : List XNode) (st : List (Str × Str) × Nat),
      (qnameFold st es).2 = nsFold st (es.map nsKeyOf) := by
  intro es
  induction es with
  | nil => intro st; rfl
  | cons e rest ih =>
      intro st
      rw [qnameFold, List.map_cons, nsFold]
      exact ih (qnameNsStep st (nsKeyOf e))

/-- Reference assignment for claim C3, following the spec's words: each
distinct namespace key of the processed sequence, in first-encounter order,
receives a synthetic prefix with strictly increasing numeric suffix starting
at `ns1`. -/
def specSyntheticAssignment (seq : List Str) : List (Str × Str) :=
  enumFromPfx 1 (firstDedup seq)

/-- Claim C3 (amended): from a fresh (empty) namespace map, the synthetic
prefixes `ns1, ns2, …` are assigned with strictly increasing suffixes in
first-encounter order of the processed element sequence — which is the root's
descendants in document order FOLLOWED by the root itself (the root is passed
to `qname` last, after `querySelectorAll("*")`). -/
theorem c3_prefix_assignment_first_encounter :
    ∀ root : XNode,
      (learnElementNames root []).2.1
        = specSyntheticAssignment ((descendantElems root ++ [root]).map nsKeyOf) := by
  intro root
  unfold learnElementNames specSyntheticAssignment firstDedup
  rw [qnameFold_state_eq, nsFold_spec]
  simp

/-- Counterexample to claim C3 as stated: with the root in namespace `A` and
its only child in namespace `B`, the child's namespace gets `ns1` and the
root's gets `ns2` — the root's namespace is encountered last, not first, so
the claimed root-first document order is wrong. -/
theorem c3_counterexample_root_namespace_last :
    lookupA (learnElementNames
        (.elem (some "A".toList) "r".toList []
          [.elem (some "B".toList) "c".toList [] []]) []).2.1 "A".toList
      = some "ns2".toList ∧
    lookupA (learnElementNames
        (.elem (some "A".toList) "r".toList []
          [.elem (some "B".toList) "c".toList [] []]) []).2.1 "B".toList
      = some "ns1".toList := by
  refine ⟨by decide, by decide⟩

/- ### addBehaviors (src/behaviors.ts) -/

/-- The converter state touched by `addBehaviors`: `namespaces` maps namespace
URIs to prefixes (JS `Map`, insertion-ordered) and `behaviors` maps qualified
element-type names to behavior definitions (JS object, insertion-ordered). -/
structure CState (β : Type) where
  namespaces : List (Str × Str)
  behaviors : List (Str × β)

/-- A bulk registration object: `nsDecls` is `bhvs.namespaces` as (prefix,
namespaceURI) pairs in key order; `entries` maps a prefix to its element-name
→ behavior map.  The `functions` / deprecated `handlers` / `fallbacks` keys
only touch the utilities object or the console and are omitted. -/
structure BulkBehaviors (β : Type) where
  nsDecls : List (Str × Str)
  entries : List (Str × List (Str × β))

def valuesOf (m : List (Str × Str)) : List Str := m.map Prod.snd

/-- Qualified behavior key: JS template literal `prefix:elementName`. -/
def qn (p n : Str) : Str := p ++ ':' :: n

/-- One iteration of the namespace-declaration loop in `addBehaviors`: the
mapping is installed only when neither the namespace URI nor the prefix is
already present. -/
def addNsDecl (acc : List (Str × Str)) (pu : Str × Str) : List (Str × Str) :=
  if !(containsKey acc pu.2) && !((valuesOf acc).contains pu.1) then
    setA acc pu.2 pu.1
  else acc

/-- Installing one prefix's behavior entries: each `prefix:elementName` key is
assigned unconditionally, overwriting any previous entry. -/
def installEntries {β : Type} (pfx : Str) (es : List (Str × β))
    (acc : List (Str × β)) : List (Str × β) :=
  es.foldl (fun a nb => setA a (qn pfx nb.1) nb.2) acc

/-- The per-prefix step of the second loop of `addBehaviors`: when the bulk
object has an entry map for this prefix, install it. -/
def installForPfx {β : Type} (bhvs : BulkBehaviors β)
    (acc : List (Str × β)) (pfx : Str) : List (Str × β) :=
  match lookupA bhvs.entries pfx with
  | some es => installEntries pfx es acc
  | none => acc

/-- Embedding of `addBehaviors` (src/behaviors.ts): first merge the namespace
declarations under the neither-present guard, then for every prefix in the
(updated) namespace map install that prefix's behavior entries. -/
def addBehaviors {β : Type} (st : CState β) (bhvs : BulkBehaviors β) : CState β :=
  let ns1 := bhvs.nsDecls.foldl addNsDecl st.namespaces
  ⟨ns1, (valuesOf ns1).foldl (installForPfx bhvs) st.behaviors⟩

/- assoc-list lemmas -/

theorem lookupA_none_of_not_contains {β : Type} (l : List (Str × β)) (k : Str)
    (h : containsKey l k = false) : lookupA l k = none := by
  induction l with
  | nil => rfl
  | cons p ps ih =>
      rw [containsKey, Bool.or_eq_false_iff] at h
      rw [lookupA, if_neg (by simp [h.1]), ih h.2]

theorem lookupA_append_left {β : Type} (l l2 : List (Str × β)) (k : Str)
    (h : containsKey l k = true) : lookupA (l ++ l2) k = lookupA l k := by
  induction l with
  | nil => simp [containsKey] at h
  | cons p ps ih =>
      rw [containsKey, Bool.or_eq_true] at h
      by_cases hp : p.1 == k
      · simp [lookupA, hp]
      · rcases h with h | h
        · exact absurd h hp
        · simp only [List.cons_append, lookupA, if_neg hp]
          exact ih h

theorem lookupA_append_fresh {β : Type} (l : List (Str × β)) (k : Str) (v : β)
    (h : containsKey l k = false) : lookupA (l ++ [(k, v)]) k = some v := by
  induction l with
  | nil => simp [lookupA]
  | cons p ps ih =>
      rw [containsKey, Bool.or_eq_false_iff] at h
      simp only [List.cons_append, lookupA, if_neg (by simp [h.1] : ¬ (p.1 == k) = true)]
      exact ih h.2

theorem lookupA_setA_self {β : Type} (l : List (Str × β)) (k : Str) (v : β) :
    lookupA (setA l k v) k = some v := by
  unfold setA
  by_cases hc : containsKey l k
  · rw [if_pos hc]
    induction l with
    | nil => simp [containsKey] at hc
    | cons p ps ih =>
        rw [containsKey, Bool.or_eq_true] at hc
        by_cases hp : p.1 == k
        · simp [lookupA, hp]
        · rcases hc with hc | hc
          · exact absurd hc hp
          · simp only [List.map_cons, if_neg hp, lookupA]
            exact ih hc
  · rw [if_neg hc]
    exact lookupA_append_fresh l k v (Bool.of_not_eq_true hc)

theorem lookupA_map_update_other {β : Type} (l : List (Str × β)) (k k' : Str) (v : β)
    (hne : k' ≠ k) :
    lookupA (l.map (fun p => if p.1 == k then (k, v) else p)) k' = lookupA l k' := by
  have hkv : ((k, v).1 == k') = false := by
    simp only [beq_eq_false_iff_ne, ne_eq]
    exact fun h => hne h.symm
  induction l with
  | nil => rfl
  | cons p ps ih =>
      by_cases hp : p.1 == k
      · have hpk : (p.1 == k') = false := by
          simp only [beq_iff_eq] at hp
          simp only [beq_eq_false_iff_ne, ne_eq, hp]
          exact fun h => hne h.symm
        simp only [List.map_cons, if_pos hp, lookupA, hkv, hpk, Bool.false_eq_true, if_false]
        exact ih
      · simp only [List.map_cons, if_neg hp, lookupA]
        by_cases hpk : p.1 == k'
        · rw [if_pos hpk, if_pos hpk]
        · rw [if_neg hpk, if_neg hpk]
          exact ih

theorem lookupA_append_single_other {β : Type} (l : List (Str × β)) (k k' : Str) (v : β)
    (hne : k' ≠ k) : lookupA (l ++ [(k, v)]) k' = lookupA l k' := by
  have hkv : ((k, v).1 == k') = false := by
    simp only [beq_eq_false_iff_ne, ne_eq]
    exact fun h => hne h.symm
  induction l with
  | nil => simp [lookupA, hkv]
  | cons p ps ih =>
      simp only [List.cons_append, lookupA]
      by_cases hpk : p.1 == k'
      · rw [if_pos hpk, if_pos hpk]
      · rw [if_neg hpk, if_neg hpk]
        exact ih

theorem lookupA_setA_other {β : Type} (l : List (Str × β)) (k k' : Str) (v : β)
    (hne : k' ≠ k) : lookupA (setA l k v) k' = lookupA l k' := by
  unfold setA
  by_cases hc : containsKey l k
  · rw [if_pos hc]
    exact lookupA_map_update_other l k k' v hne
  · rw [if_neg hc]
    exact lookupA_append_single_other l k k' v hne

theorem containsKey_append {β : Type} (l l2 : List (Str × β)) (k : Str) :
    containsKey (l ++ l2) k = (containsKey l k || containsKey l2 k) := by
  induction l with
  | nil => rfl
  | cons p ps ih =>
      simp only [List.cons_append, containsKey, List.append_eq, ih, Bool.or_assoc]

/-- A prefix string free of colons, so that `prefix:elementName` keys parse
unambiguously. -/
def noColon (p : Str) : Prop := ':' ∉ p

instance (p : Str) : Decidable (noColon p) := by
  unfold noColon
  infer_instance

theorem qn_inj_right {p n n' : Str} (h : qn p n = qn p n') : n = n' := by
  unfold qn at h
  have := List.append_cancel_left h
  simpa using this

theorem qn_inj : ∀ {p p' n n' : Str}, noColon p → noColon p' →
    qn p n = qn p' n' → p = p' ∧ n = n' := by
  intro p
  induction p with
  | nil =>
      intro p' n n' _ hp' h
      cases p' with
      | nil => simpa [qn] using h
      | cons d ps' =>
          exfalso
          simp only [qn, List.nil_append, List.cons_append, List.cons.injEq] at h
          apply hp'
          rw [← h.1]
          exact List.mem_cons_self _ _
  | cons c ps ih =>
      intro p' n n' hp hp' h
      cases p' with
      | nil =>
          exfalso
          simp only [qn, List.nil_append, List.cons_append, List.cons.injEq] at h
          apply hp
          rw [h.1]
          exact List.mem_cons_self _ _
      | cons d ps' =>
          simp only [qn, List.cons_append, List.cons.injEq] at h
          have hps : noColon ps := fun hx => hp (List.mem_cons_of_mem _ hx)
          have hps' : noColon ps' := fun hx => hp' (List.mem_cons_of_mem _ hx)
          have := ih hps hps' (by simpa [qn] using h.2)
          exact ⟨by rw [h.1, this.1], this.2⟩

/- phase 1: namespace-declaration merging -/

theorem phase1_preserve :
    ∀ (decls : List (Str × Str)) (acc : List (Str × Str)) (k : Str),
      containsKey acc k = true →
      containsKey (decls.foldl addNsDecl acc) k = true ∧
      lookupA (decls.foldl addNsDecl acc) k = lookupA acc k := by
  intro decls
  induction decls with
  | nil => intro acc k h; exact ⟨h, rfl⟩
  | cons pu rest ih =>
      intro acc k h
      rw [List.foldl_cons]
      by_cases hg : (!containsKey acc pu.2 && !(valuesOf acc).contains pu.1) = true
      · simp only [Bool.and_eq_true, Bool.not_eq_true'] at hg
        have hfresh : containsKey acc pu.2 = false := hg.1
        have hne : k ≠ pu.2 := by
          intro hx
          rw [hx] at h
          rw [h] at hfresh
          exact Bool.true_eq_false.mp hfresh
        have hg2' : pu.1 ∉ valuesOf acc := by
          have hx := hg.2
          simp only [List.elem_eq_mem, decide_eq_false_iff_not] at hx
          exact hx
        have hstep : addNsDecl acc pu = acc ++ [(pu.2, pu.1)] := by
          unfold addNsDecl setA
          rw [if_pos (by simp [hg.1, hg2']), if_neg (by simp [hfresh])]
        rw [hstep]
        have hck : containsKey (acc ++ [(pu.2, pu.1)]) k = true := by
          rw [containsKey_append, h, Bool.true_or]
        obtain ⟨h1, h2⟩ := ih (acc ++ [(pu.2, pu.1)]) k hck
        refine ⟨h1, ?_⟩
        rw [h2]
        exact lookupA_append_single_other acc pu.2 k pu.1 hne
      · have hstep : addNsDecl acc pu = acc := by
          unfold addNsDecl
          rw [if_neg hg]
        rw [hstep]
        exact ih acc k h

theorem phase1_not_added :
    ∀ (decls : List (Str × Str)) (acc : List (Str × Str)) (u : Str),
      containsKey acc u = false →
      (∀ pu ∈ decls, pu.2 = u → (valuesOf acc).contains pu.1 = true) →
      containsKey (decls.foldl addNsDecl acc) u = false := by
  intro decls
  induction decls with
  | nil => intro acc u h _; exact h
  | cons pu rest ih =>
      intro acc u h hvals
      rw [List.foldl_cons]
      by_cases hg : (!containsKey acc pu.2 && !(valuesOf acc).contains pu.1) = true
      · simp only [Bool.and_eq_true, Bool.not_eq_true'] at hg
        have hne : pu.2 ≠ u := by
          intro hx
          have := hvals pu (List.mem_cons_self _ _) hx
          rw [this] at hg
          exact Bool.true_eq_false.mp hg.2
        have hg2' : pu.1 ∉ valuesOf acc := by
          have hx := hg.2
          simp only [List.elem_eq_mem, decide_eq_false_iff_not] at hx
          exact hx
        have hstep : addNsDecl acc pu = acc ++ [(pu.2, pu.1)] := by
          unfold addNsDecl setA
          rw [if_pos (by simp [hg.1, hg2']), if_neg (by simp [hg.1])]
        rw [hstep]
        refine ih (acc ++ [(pu.2, pu.1)]) u ?_ ?_
        · rw [containsKey_append, h]
          have hone : containsKey [(pu.2, pu.1)] u = false := by
            simp [containsKey, beq_eq_false_iff_ne, hne]
          rw [hone]
          rfl
        · intro pu' hmem hu
          have hthis := hvals pu' (List.mem_cons_of_mem _ hmem) hu
          unfold valuesOf at hthis ⊢
          rw [List.map_append]
          simp only [List.elem_eq_mem, decide_eq_true_eq] at hthis ⊢
          exact List.mem_append_left _ hthis
      · have hstep : addNsDecl acc pu = acc := by
          unfold addNsDecl
          rw [if_neg hg]
        rw [hstep]
        exact ih acc u h
          (fun pu' hmem hu => hvals pu' (List.mem_cons_of_mem _ hmem) hu)

/- phase 2: behavior-entry installation -/

theorem installEntries_foldl_cons {β : Type} (pfx : Str) (nb : Str × β)
    (rest : List (Str × β)) (acc : List (Str × β)) :
    installEntries pfx (nb :: rest) acc
      = installEntries pfx rest (setA acc (qn pfx nb.1) nb.2) := rfl

theorem installEntries_preserve {β : Type} (pfx : Str) :
    ∀ (es : List (Str × β)) (acc : List (Str × β)) (key : Str),
      (∀ nb ∈ es, key ≠ qn pfx nb.1) →
      lookupA (installEntries pfx es acc) key = lookupA acc key := by
  intro es
  induction es with
  | nil => intro acc key _; rfl
  | cons nb rest ih =>
      intro acc key h
      rw [installEntries_foldl_cons]
      rw [ih _ key (fun nb' hmem => h nb' (List.mem_cons_of_mem _ hmem))]
      exact lookupA_setA_other acc (qn pfx nb.1) key nb.2 (h nb (List.mem_cons_self _ _))

theorem installEntries_last {β : Type} (pfx : Str) :
    ∀ (es : List (Str × β)) (acc : List (Str × β)) (n : Str) (b : β),
      (es.map Prod.fst).Nodup → (n, b) ∈ es →
      lookupA (installEntries pfx es acc) (qn pfx n) = some b := by
  intro es
  induction es with
  | nil => intro acc n b _ hmem; simp at hmem
  | cons nb rest ih =>
      intro acc n b hnd hmem
      rw [installEntries_foldl_cons]
      rcases List.mem_cons.mp hmem with hmem | hmem
      · have hn : nb.1 = n := by rw [← hmem]
        have hnotin : n ∉ rest.map Prod.fst := by
          rw [List.map_cons] at hnd
          have := (List.nodup_cons.mp hnd).1
          rw [hn] at this
          exact this
        rw [installEntries_preserve pfx rest _ (qn pfx n) ?_]
        · rw [← hmem]
          exact lookupA_setA_self acc (qn pfx n) b
        · intro nb' hmem' heq
          apply hnotin
          have := qn_inj_right heq
          rw [this]
          exact List.mem_map.mpr ⟨nb', hmem', rfl⟩
      · refine ih _ n b ?_ hmem
        rw [List.map_cons] at hnd
        exact (List.nodup_cons.mp hnd).2

theorem phase2_preserve {β : Type} (bhvs : BulkBehaviors β) :
    ∀ (pfxs : List Str) (acc : List (Str × β)) (key : Str),
      (∀ pfx ∈ pfxs, ∀ n, key ≠ qn pfx n) →
      lookupA (pfxs.foldl (installForPfx bhvs) acc) key = lookupA acc key := by
  intro pfxs
  induction pfxs with
  | nil => intro acc key _; rfl
  | cons p0 rest ih =>
      intro acc key h
      rw [List.foldl_cons]
      rw [ih _ key (fun pfx hmem n => h pfx (List.mem_cons_of_mem _ hmem) n)]
      unfold installForPfx
      cases lookupA bhvs.entries p0 with
      | none => rfl
      | some es =>
          exact installEntries_preserve p0 es acc key
            (fun nb _ => h p0 (List.mem_cons_self _ _) nb.1)

theorem phase2_install {β : Type} (bhvs : BulkBehaviors β) :
    ∀ (pfxs : List Str) (acc : List (Str × β)) (p : Str)
      (es : List (Str × β)) (n : Str) (b : β),
      (∀ q ∈ pfxs, noColon q) → p ∈ pfxs →
      lookupA bhvs.entries p = some es →
      (es.map Prod.fst).Nodup → (n, b) ∈ es →
      lookupA (pfxs.foldl (installForPfx bhvs) acc) (qn p n) = some b := by
  intro pfxs
  induction pfxs with
  | nil => intro acc p es n b _ hmem; simp at hmem
  | cons p0 rest ih =>
      intro acc p es n b hfree hmem hes hnd hb
      rw [List.foldl_cons]
      by_cases hrest : p ∈ rest
      · exact ih _ p es n b (fun q hq => hfree q (List.mem_cons_of_mem _ hq)) hrest hes hnd hb
      · have hp0 : p0 = p := by
          rcases List.mem_cons.mp hmem with h | h
          · exact h.symm
          · exact absurd h hrest
        subst hp0
        rw [phase2_preserve bhvs rest _ (qn p0 n) ?_]
        · unfold installForPfx
          rw [hes]
          exact installEntries_last p0 es acc n b hnd hb
        · intro pfx hpfx n' heq
          have hfp : noColon p0 := hfree p0 (List.mem_cons_self _ _)
          have hfx : noColon pfx := hfree pfx (List.mem_cons_of_mem _ hpfx)
          have := qn_inj hfp hfx heq
          apply hrest
          rw [this.1]
          exact hpfx

/-- Claim C7: namespace declarations are merged only when neither the URI nor
the prefix is already present (an existing URI mapping is never overwritten,
and a URI whose every declaration reuses a taken prefix is not added at all —
first-registered wins), while a per-type behavior entry for a registered
prefix is always installed under `prefix:elementName`, overwriting whatever
the behaviors map previously held for that key — last-registered wins. -/
theorem c7_addBehaviors_merge {β : Type} :
    (∀ (st : CState β) (p u : Str) (bentries : List (Str × List (Str × β))),
      containsKey st.namespaces u = false →
      (valuesOf st.namespaces).contains p = false →
      lookupA (addBehaviors st ⟨[(p, u)], bentries⟩).namespaces u = some p) ∧
    (∀ (st : CState β) (bhvs : BulkBehaviors β) (u : Str),
      containsKey st.namespaces u = true →
      lookupA (addBehaviors st bhvs).namespaces u = lookupA st.namespaces u) ∧
    (∀ (st : CState β) (bhvs : BulkBehaviors β) (u : Str),
      containsKey st.namespaces u = false →
      (∀ pu ∈ bhvs.nsDecls, pu.2 = u → (valuesOf st.namespaces).contains pu.1 = true) →
      lookupA (addBehaviors st bhvs).namespaces u = none) ∧
    (∀ (st : CState β) (bhvs : BulkBehaviors β) (p : Str)
        (es : List (Str × β)) (n : Str) (b : β),
      (∀ q ∈ valuesOf (addBehaviors st bhvs).namespaces, noColon q) →
      p ∈ valuesOf (addBehaviors st bhvs).namespaces →
      lookupA bhvs.entries p = some es →
      (es.map Prod.fst).Nodup → (n, b) ∈ es →
      lookupA (addBehaviors st bhvs).behaviors (qn p n) = some b) := by
  refine ⟨?_, ?_, ?_, ?_⟩
  · intro st p u bentries hu hp
    show lookupA ([(p, u)].foldl addNsDecl st.namespaces) u = some p
    rw [List.foldl_cons, List.foldl_nil]
    have hp' : p ∉ valuesOf st.namespaces := by
      have hx := hp
      simp only [List.elem_eq_mem, decide_eq_false_iff_not] at hx
      exact hx
    have hstep : addNsDecl st.namespaces (p, u) = st.namespaces ++ [(u, p)] := by
      unfold addNsDecl setA
      rw [if_pos (by simp [hu, hp']), if_neg (by simp [hu])]
    rw [hstep]
    exact lookupA_append_fresh st.namespaces u p hu
  · intro st bhvs u h
    exact (phase1_preserve bhvs.nsDecls st.namespaces u h).2
  · intro st bhvs u h hvals
    exact lookupA_none_of_not_contains _ u (phase1_not_added bhvs.nsDecls st.namespaces u h hvals)
  · intro st bhvs p es n b hfree hmem hes hnd hb
    exact phase2_install bhvs _ st.behaviors p es n b hfree hmem hes hnd hb

/-- Witness for C7: a fresh declaration is added; an existing URI mapping is
untouched; a behavior entry for a known prefix overwrites the old one. -/
theorem c7_addBehaviors_merge_witness :
    lookupA (addBehaviors (β := Nat) ⟨[], []⟩
        ⟨[("tei".toList, "u1".toList)], []⟩).namespaces "u1".toList
      = some "tei".toList ∧
    lookupA (addBehaviors (β := Nat) ⟨[("u1".toList, "tei".toList)], []⟩
        ⟨[("x".toList, "u1".toList)], []⟩).namespaces "u1".toList
      = some "tei".toList ∧
    lookupA (addBehaviors (β := Nat)
        ⟨[("u1".toList, "tei".toList)], [(qn "tei".toList "p".toList, 7)]⟩
        ⟨[], [("tei".toList, [("p".toList, 9)])]⟩).behaviors
        (qn "tei".toList "p".toList)
      = some 9 :=
  ⟨c7_addBehaviors_merge.1 ⟨[], []⟩ "tei".toList "u1".toList [] (by decide) (by decide),
   c7_addBehaviors_merge.2.1 ⟨[("u1".toList, "tei".toList)], []⟩
     ⟨[("x".toList, "u1".toList)], []⟩ "u1".toList (by decide),
   c7_addBehaviors_merge.2.2.2
     ⟨[("u1".toList, "tei".toList)], [(qn "tei".toList "p".toList, 7)]⟩
     ⟨[], [("tei".toList, [("p".toList, 9)])]⟩ "tei".toList [("p".toList, 9)]
     "p".toList 9 (by decide) (by decide) (by decide) (by decide) (by decide)⟩

/- ### Converted (HTML-side) DOM nodes and the XML serializer (src/utilities.ts) -/

/-- Whitespace/pretty-printing argument of `serialize`: JS `ws?: string |
boolean`.  Branches in the source test `typeof ws === "string"`. -/
inductive WSArg where
  | undef
  | bool (b : Bool)
  | str (s : Str)
deriving DecidableEq

/-- A node of the converted (HTML-side) tree. -/
inductive CNode where
  | elem (tag : Str) (attrs : List (Str × Str)) (children : List CNode)
  | text (value : Str)
  | procInst (name : Str) (value : Str)
  | comment (value : Str)
  | doc (children : List CNode)
  | frag (children : List CNode)

/-- JS `node.nodeValue ?? ""` for the serializer's default switch branch. -/
def nodeValueD : CNode → Str
  | .text v => v
  | .procInst _ v => v
  | .comment v => v
  | _ => []

def xmlProlog : Str := "<?xml version=\"1.0\" encoding=\"UTF-8\"?>\n".toList

/-- The serializer's `ignorable`: true for the empty string (falsy in JS) and
for strings with no character outside tab/newline/carriage-return/space. -/
def ignorable (txt : Str) : Bool :=
  txt.all (fun c => c == '\t' || c == '\n' || c == '\r' || c == ' ')

/-- Characters matched by the JS `\s` class (ASCII portion). -/
def jsWs (c : Char) : Bool :=
  c == ' ' || c == '\t' || c == '\n' || c == '\r' || c == '\x0b' || c == '\x0c'

/-- JS `value.replace(/^\s*\n/, "")`: remove the shortest-to-longest leading
whitespace run up to and including its last newline, when one exists. -/
def stripLeadWsNl (s : Str) : Str :=
  let w := s.takeWhile jsWs
  if '\n' ∈ w then s.drop (w.length - w.reverse.findIdx (fun c => c == '\n')) else s

/-- JS `String.prototype.split(" ")`. -/
def splitSpace : Str → List Str
  | [] => [[]]
  | c :: cs =>
    if c = ' ' then [] :: splitSpace cs
    else match splitSpace cs with
      | [] => [[c]]
      | h :: t => (c :: h) :: t

/-- `el.getAttribute("data-origname")` as concatenated by the serializer
(JS string concatenation renders a missing attribute as "null"). -/
def dataOrigname (attrs : List (Str × Str)) : Str :=
  (lookupA attrs "data-origname".toList).getD "null".toList

/-- The serializer's `attrNames`: the original attribute spellings recorded in
`data-origatts`, split on spaces. -/
def origAttNames (attrs : List (Str × Str)) : List Str :=
  if containsKey attrs "data-origatts".toList then
    splitSpace ((lookupA attrs "data-origatts".toList).getD [])
  else []

/-- JS `attrNames.find((e) => e.toLowerCase() == name) || name`. -/
def findOrig (attrNames : List Str) (name : Str) : Str :=
  match attrNames.find? (fun e => strLower e == name) with
  | some e => if e.isEmpty then name else e
  | none => name

/-- One attribute's contribution to the serialized open tag: the three
independent `if`s of the serializer's attribute loop. -/
def emitAttr (attrNames : List Str) (nv : Str × Str) : Str :=
  (if ¬ ("data-".toList.isPrefixOf nv.1) ∧ ¬ ("tei-".toList.isPrefixOf nv.1)
      ∧ ¬ ("aria-".toList.isPrefixOf nv.1)
      ∧ nv.1 ∉ ["id".toList, "lang".toList, "class".toList] then
    ' ' :: findOrig attrNames nv.1 ++ '=' :: '"' :: nv.2 ++ ['"']
  else []) ++
  (if nv.1 = "data-xmlns".toList then
    " xmlns=\"".toList ++ nv.2 ++ ['"']
  else []) ++
  (if "tei-".toList.isPrefixOf nv.1 then
    ' ' :: findOrig attrNames (replaceFirstL "tei-".toList [] nv.1)
      ++ '=' :: '"' :: nv.2 ++ ['"']
  else [])

def serAttrs (attrNames : List Str) (attrs : List (Str × Str)) : Str :=
  attrs.flatMap (emitAttr attrNames)

/-- Opening-tag prefix: `"\n" + ws + "<"` when pretty-printing with a
nonempty indent, else `"<"`. -/
def wsOpen : WSArg → Str
  | .str s => if s ≠ [] then '\n' :: s ++ ['<'] else ['<']
  | _ => ['<']

/-- Closing-tag prefix: `"\n" + ws + "</"` when pretty-printing, else `"</"`. -/
def wsClose : WSArg → Str
  | .str s => '\n' :: s ++ ['<', '/']
  | _ => ['<', '/']

/-- Indent passed to element children: `ws + "  "` when `ws` is a string. -/
def childWs : WSArg → WSArg
  | .str s => .str (s ++ "  ".toList)
  | w => w

/-- Everything the serializer writes for an element before the `>`/`/>`. -/
def serializeOpen (attrs : List (Str × Str)) (ws : WSArg) : Str :=
  wsOpen ws ++ dataOrigname attrs ++ serAttrs (origAttNames attrs) attrs

mutual
/-- Embedding of `serialize` (src/utilities.ts): XML-flavoured serialization
of a converted node.  Documents and fragments get the XML declaration
prologue and a trailing newline; a non-stripped element gets an open tag with
restored attribute spellings, a self-closing `/>` exactly when it has no
child nodes, its serialized children, and a close tag otherwise. -/
def serialize (el : CNode) (stripElt : Bool) (ws : WSArg) : Str :=
  match el with
  | .elem _tag attrs children =>
      (if stripElt then [] else
        serializeOpen attrs ws ++ (if children.length > 0 then ['>'] else ['/', '>']))
      ++ serializeChildren children false stripElt ws
      ++ (if ¬ stripElt ∧ children.length > 0 then
            wsClose ws ++ dataOrigname attrs ++ ['>']
          else [])
  | .doc children => xmlProlog ++ serializeChildren children true stripElt ws ++ ['\n']
  | .frag children => xmlProlog ++ serializeChildren children true stripElt ws ++ ['\n']
  | _ => []

/-- The serializer's `for (let node of el.childNodes)` switch.  `isRootLike`
and `stripElt` are those of the parent. -/
def serializeChildren (nodes : List CNode) (isRootLike stripElt : Bool) (ws : WSArg) : Str :=
  match nodes with
  | [] => []
  | n :: rest =>
      (match n with
       | .elem t a c => serialize (.elem t a c) false (childWs ws)
       | .procInst nm v =>
           '<' :: '?' :: nm ++ ' ' :: v ++ ['?', '>']
             ++ (if isRootLike then ['\n'] else [])
       | .comment v =>
           "<!--".toList ++ v ++ "-->".toList
             ++ (if isRootLike then ['\n'] else [])
       | other =>
           let value := nodeValueD other
           (if stripElt && ignorable value then stripLeadWsNl value else [])
             ++ (if (match ws with | .str _ => true | _ => false) && ignorable value then []
                 else value))
      ++ serializeChildren rest isRootLike stripElt ws
end

/-- Claim C8: a (non-stripped) element serializes to a self-closing tag
exactly when it has no child nodes, and an open/close pair otherwise; a
Document or DocumentFragment serializes to the XML declaration prologue (with
its newline) followed by its children and a trailing newline. -/
theorem c8_serialize_selfclosing_and_prolog :
    (∀ (tag : Str) (attrs : List (Str × Str)) (ws : WSArg),
      serialize (.elem tag attrs []) false ws = serializeOpen attrs ws ++ "/>".toList) ∧
    (∀ (tag : Str) (attrs : List (Str × Str)) (c : CNode) (cs : List CNode) (ws : WSArg),
      serialize (.elem tag attrs (c :: cs)) false ws
        = serializeOpen attrs ws ++ ">".toList
          ++ serializeChildren (c :: cs) false false ws
          ++ wsClose ws ++ dataOrigname attrs ++ ">".toList) ∧
    (∀ (children : List CNode) (stripElt : Bool) (ws : WSArg),
      serialize (.doc children) stripElt ws
        = xmlProlog ++ serializeChildren children true stripElt ws ++ "\n".toList) ∧
    (∀ (children : List CNode) (stripElt : Bool) (ws : WSArg),
      serialize (.frag children) stripElt ws
        = xmlProlog ++ serializeChildren children true stripElt ws ++ "\n".toList) := by
  refine ⟨?_, ?_, ?_, ?_⟩
  · intro tag attrs ws
    simp [serialize, serializeChildren]
  · intro tag attrs c cs ws
    simp [serialize]
  · intro children stripElt ws
    simp [serialize]
  · intro children stripElt ws
    simp [serialize]

/- ### template (src/CETEI.ts): attribute interpolation -/

/-- JS `\w`. -/
def wordChar (c : Char) : Bool := c.isAlpha || c.isDigit || c == '_'

/-- The character class `[a-zA-Z:]` of the placeholder's attribute name. -/
def attrChar (c : Char) : Bool := c.isAlpha || c == ':'

/-- Matcher for the placeholder regex `\$(\w*)@([a-zA-Z:]+)` anchored at the
start of `s`: returns (full match, utility name, attribute name).  Greedy
matching of `\w*` needs no backtracking because `@` is not a word char. -/
def matchPh (s : Str) : Option (Str × Str × Str) :=
  match s with
  | [] => none
  | c :: rest =>
    if c = '$' then
      let u := rest.takeWhile wordChar
      match rest.drop u.length with
      | [] => none
      | d :: rest2 =>
        if d = '@' then
          let a := rest2.takeWhile attrChar
          if a.isEmpty then none
          else some ('$' :: (u ++ '@' :: a), u, a)
        else none
    else none

/-- Fuel-indexed scan of `re.exec` over the subject: find the next placeholder
match, record it, and continue after it (the regex's `lastIndex` advances past
the match). -/
def findMatchesF : Nat → Str → List (Str × Str × Str)
  | 0, _ => []
  | _ + 1, [] => []
  | fuel + 1, c :: cs =>
    match matchPh (c :: cs) with
    | some m => m :: findMatchesF fuel ((c :: cs).drop m.1.length)
    | none => findMatchesF fuel cs

/-- All placeholder matches of the subject, left to right. -/
def findMatches (s : Str) : List (Str × Str × Str) := findMatchesF s.length s

/-- JS `str.search(re)`: index of the first match. -/
def searchIdx : Str → Option Nat
  | [] => none
  | c :: cs =>
    if (matchPh (c :: cs)).isSome then some 0 else (searchIdx cs).map (· + 1)

/-- Replacement text for one placeholder: the named attribute's value, piped
through the named utility function when the utility name is nonempty and such
a function exists, or the empty string when the attribute is absent. -/
def phReplacement (utilities : List (Str × (Str → Str)))
    (attrs : List (Str × Str)) (u a : Str) : Str :=
  match lookupA attrs a with
  | some v =>
      if ¬ u.isEmpty then
        match lookupA utilities u with
        | some f => f v
        | none => v
      else v
  | none => []

/-- The `while ((replacements = re.exec(str)))` loop: each recorded match text
has its first occurrence in the running result replaced. -/
def runReplacements (utilities : List (Str × (Str → Str)))
    (attrs : List (Str × Str)) (ms : List (Str × Str × Str)) (init : Str) : Str :=
  ms.foldl
    (fun result m => replaceFirstL m.1 (phReplacement utilities attrs m.2.1 m.2.2) result)
    init

/-- Embedding of `template` (src/CETEI.ts).  The guard is JS
`if (str.search(re))`: the search result is used as a truthiness test, so a
first match at index 0 makes the whole interpolation step a no-op and the
string is returned unchanged.  (Replacement-string `$`-escapes of JS
`String.replace` are outside the modelled regime: theorems below restrict to
`$`-free replacement values, where the two semantics agree.) -/
def template (utilities : List (Str × (Str → Str)))
    (attrs : List (Str × Str)) (s : Str) : Str :=
  if searchIdx s = some 0 then s
  else runReplacements utilities attrs (findMatches s) s

/-- Counterexample to claim C4 as stated: a placeholder at the very start of
the template string is NOT replaced — `str.search` returns 0 there, `if (0)`
is falsy, and the string is returned untouched instead of the attribute
value. -/
theorem c4_counterexample_placeholder_at_start :
    template [] [("target".toList, "#n1".toList)] "$@target".toList
      = "$@target".toList ∧
    ("$@target".toList : Str) ≠ "#n1".toList ∧
    template [] [("target".toList, "#n1".toList)] " $@target".toList
      = " #n1".toList := by
  refine ⟨by decide, by decide, by decide⟩

/- template support lemmas -/

theorem takeWhile_append_all {p : Char → Bool} :
    ∀ (l1 l2 : List Char), l1.all p = true →
      (l1 ++ l2).takeWhile p = l1 ++ l2.takeWhile p := by
  intro l1
  induction l1 with
  | nil => intro l2 _; rfl
  | cons c cs ih =>
      intro l2 h
      rw [List.all_cons, Bool.and_eq_true] at h
      simp only [List.cons_append, List.takeWhile_cons, h.1, if_true]
      rw [ih l2 h.2]

theorem takeWhile_nil_of_head {p : Char → Bool} (l : List Char)
    (h : ∀ c, l.head? = some c → p c = false) : l.takeWhile p = [] := by
  cases l with
  | nil => rfl
  | cons c cs =>
      have := h c rfl
      simp [List.takeWhile_cons, this]

/-- A placeholder segment of a template string: `$u@a` followed by a literal
chunk. -/
structure PhSeg where
  u : Str
  a : Str
  lit : Str

def phText (sg : PhSeg) : Str := '$' :: (sg.u ++ '@' :: sg.a)

def assembleTpl (lit0 : Str) (segs : List PhSeg) : Str :=
  lit0 ++ segs.flatMap (fun sg => phText sg ++ sg.lit)

/-- The spec-side rendering for claim C4: every placeholder replaced by
`phReplacement`, literals kept. -/
def renderTpl (utilities : List (Str × (Str → Str))) (attrs : List (Str × Str))
    (lit0 : Str) (segs : List PhSeg) : Str :=
  lit0 ++ segs.flatMap (fun sg => phReplacement utilities attrs sg.u sg.a ++ sg.lit)

def noDollar (s : Str) : Prop := '$' ∉ s

instance (s : Str) : Decidable (noDollar s) := by
  unfold noDollar
  infer_instance

/-- Well-formed segment: the utility name is word chars, the attribute name is
a nonempty run of name chars, and the following literal cannot extend the
match (no `$` inside, and its first character is not an attribute-name
char). -/
def wfSeg (sg : PhSeg) : Prop :=
  sg.u.all wordChar = true ∧ sg.a ≠ [] ∧ sg.a.all attrChar = true ∧
  noDollar sg.lit ∧ (∀ c, sg.lit.head? = some c → attrChar c = false)

instance (sg : PhSeg) : Decidable (wfSeg sg) := by
  unfold wfSeg
  infer_instance

theorem matchPh_none_of_ne (c : Char) (cs : Str) (h : c ≠ '$') :
    matchPh (c :: cs) = none := by
  simp [matchPh, h]

theorem matchPh_at_seg (sg : PhSeg) (tail : Str) (hw : wfSeg sg)
    (htail : ∀ c, tail.head? = some c → attrChar c = false) :
    matchPh (phText sg ++ tail) = some (phText sg, sg.u, sg.a) := by
  obtain ⟨hu, hane, ha, _, _⟩ := hw
  have h1 : phText sg ++ tail = '$' :: (sg.u ++ ('@' :: (sg.a ++ tail))) := by
    simp [phText]
  rw [h1]
  simp only [matchPh, if_pos rfl]
  have htake : (sg.u ++ ('@' :: (sg.a ++ tail))).takeWhile wordChar = sg.u := by
    rw [takeWhile_append_all _ _ hu]
    have : ('@' :: (sg.a ++ tail)).takeWhile wordChar = [] := by
      simp [List.takeWhile_cons]
      decide
    rw [this, List.append_nil]
  rw [htake]
  have hdrop : (sg.u ++ ('@' :: (sg.a ++ tail))).drop sg.u.length
      = '@' :: (sg.a ++ tail) := List.drop_left _ _
  rw [hdrop]
  simp only [if_pos rfl]
  have htake2 : (sg.a ++ tail).takeWhile attrChar = sg.a := by
    rw [takeWhile_append_all _ _ ha, takeWhile_nil_of_head tail htail, List.append_nil]
  rw [htake2]
  have hnae : ¬ sg.a.isEmpty = true := fun hae => hane (List.isEmpty_iff.mp hae)
  rw [if_neg hnae]
  simp [phText]

theorem matchPh_some_ne_nil {s : Str} {m : Str × Str × Str}
    (h : matchPh s = some m) : m.1 ≠ [] := by
  cases s with
  | nil => simp [matchPh] at h
  | cons c cs =>
      simp only [matchPh] at h
      by_cases hc : c = '$'
      · rw [if_pos hc] at h
        revert h
        cases hd : cs.drop (cs.takeWhile wordChar).length with
        | nil => intro h; simp at h
        | cons d rest2 =>
            intro h
            simp only [] at h
            by_cases hdd : d = '@'
            · rw [if_pos hdd] at h
              by_cases hae : (rest2.takeWhile attrChar).isEmpty
              · rw [if_pos hae] at h
                simp at h
              · rw [if_neg hae] at h
                have hm := Option.some.inj h
                rw [← hm]
                simp
            · rw [if_neg hdd] at h
              simp at h
      · rw [if_neg hc] at h
        simp at h

theorem findMatchesF_fuel :
    ∀ (f1 : Nat) (s : Str) (f2 : Nat), s.length ≤ f1 → s.length ≤ f2 →
      findMatchesF f1 s = findMatchesF f2 s := by
  intro f1
  induction f1 with
  | zero =>
      intro s f2 h1 _
      have hs : s = [] := List.eq_nil_of_length_eq_zero (Nat.le_zero.mp h1)
      subst hs
      cases f2 <;> rfl
  | succ f1 ih =>
      intro s f2 h1 h2
      cases s with
      | nil => cases f2 <;> rfl
      | cons c cs =>
          cases f2 with
          | zero => simp at h2
          | succ f2 =>
              rw [findMatchesF, findMatchesF]
              cases hm : matchPh (c :: cs) with
              | none =>
                  simp only []
                  exact ih cs f2 (by simpa using h1) (by simpa using h2)
              | some m =>
                  simp only []
                  have hlen : ((c :: cs).drop m.1.length).length ≤ f1 ∧
                      ((c :: cs).drop m.1.length).length ≤ f2 := by
                    have hpos : 0 < m.1.length :=
                      List.length_pos.mpr (matchPh_some_ne_nil hm)
                    rw [List.length_drop]
                    simp only [List.length_cons] at h1 h2 ⊢
                    omega
                  rw [ih _ f2 hlen.1 hlen.2]

theorem findMatches_skip_lit :
    ∀ (lit s : Str), noDollar lit → findMatches (lit ++ s) = findMatches s := by
  intro lit
  induction lit with
  | nil => intro s _; rfl
  | cons c cs ih =>
      intro s h
      have hc : c ≠ '$' := fun hx => h (by rw [hx]; exact List.mem_cons_self _ _)
      have hcs : noDollar cs := fun hx => h (List.mem_cons_of_mem _ hx)
      unfold findMatches
      have hlen : ((c :: cs) ++ s).length = (cs ++ s).length + 1 := by simp
      rw [hlen]
      rw [List.cons_append, findMatchesF, matchPh_none_of_ne c _ hc]
      simp only []
      have := ih s hcs
      unfold findMatches at this
      exact this

theorem assembleTpl_head_not_attrChar (segs : List PhSeg) :
    ∀ c, (assembleTpl [] segs).head? = some c → attrChar c = false := by
  intro c hc
  cases segs with
  | nil => simp [assembleTpl] at hc
  | cons sg rest =>
      simp only [assembleTpl, List.nil_append, List.flatMap_cons, phText,
        List.cons_append, List.head?_cons] at hc
      rw [← Option.some.inj hc]
      decide

theorem findMatches_assemble :
    ∀ (segs : List PhSeg), (∀ sg ∈ segs, wfSeg sg) →
      findMatches (assembleTpl [] segs)
        = segs.map (fun sg => (phText sg, sg.u, sg.a)) := by
  intro segs
  induction segs with
  | nil => intro _; rfl
  | cons sg rest ih =>
      intro hw
      have hwsg := hw sg (List.mem_cons_self _ _)
      have hwrest : ∀ s ∈ rest, wfSeg s := fun s hs => hw s (List.mem_cons_of_mem _ hs)
      have hassemble : assembleTpl [] (sg :: rest)
          = phText sg ++ (sg.lit ++ assembleTpl [] rest) := by
        simp [assembleTpl]
      rw [hassemble]
      have htailhead : ∀ c, (sg.lit ++ assembleTpl [] rest).head? = some c →
          attrChar c = false := by
        intro c hc
        cases hl : sg.lit with
        | nil =>
            rw [hl] at hc
            simp only [List.nil_append] at hc
            exact assembleTpl_head_not_attrChar rest c hc
        | cons lc lcs =>
            rw [hl] at hc
            simp only [List.cons_append, List.head?_cons] at hc
            have := hwsg.2.2.2.2 lc (by rw [hl]; rfl)
            rw [← Option.some.inj hc]
            exact this
      have hmatch := matchPh_at_seg sg (sg.lit ++ assembleTpl [] rest) hwsg htailhead
      have hne : phText sg ++ (sg.lit ++ assembleTpl [] rest) ≠ [] := by
        simp [phText]
      unfold findMatches
      cases hs : phText sg ++ (sg.lit ++ assembleTpl [] rest) with
      | nil => exact absurd hs hne
      | cons c cs =>
          rw [List.length_cons, findMatchesF]
          rw [← hs, hmatch]
          simp only []
          rw [List.drop_left]
          have hfuel : (sg.lit ++ assembleTpl [] rest).length ≤ cs.length := by
            have hlen2 : (c :: cs).length = (phText sg).length
                + (sg.lit ++ assembleTpl [] rest).length := by
              rw [← hs]
              simp
            have hp : 0 < (phText sg).length := by simp [phText]
            simp only [List.length_cons] at hlen2
            omega
          rw [findMatchesF_fuel _ _ (sg.lit ++ assembleTpl [] rest).length hfuel (le_refl _)]
          have hskip := findMatches_skip_lit sg.lit (assembleTpl [] rest) hwsg.2.2.2.1
          unfold findMatches at hskip
          rw [hskip]
          have hih := ih hwrest
          unfold findMatches at hih
          rw [hih, List.map_cons]

theorem replaceFirst_after_noDollar (t rep : Str) :
    ∀ (pre suffix : Str), noDollar pre →
      replaceFirstL ('$' :: t) rep (pre ++ ('$' :: t) ++ suffix) = pre ++ rep ++ suffix := by
  intro pre
  induction pre with
  | nil =>
      intro suffix _
      simp only [List.nil_append]
      have hpre : ('$' :: t).isPrefixOf (('$' :: t) ++ suffix) = true :=
        List.isPrefixOf_iff_prefix.mpr (List.prefix_append _ _)
      have hcons : ('$' :: t) ++ suffix = '$' :: (t ++ suffix) := rfl
      rw [hcons, replaceFirstL, ← hcons, if_pos hpre, List.drop_left]
  | cons c pres ih =>
      intro suffix h
      have hc : c ≠ '$' := fun hx => h (by rw [hx]; exact List.mem_cons_self _ _)
      have hcs : noDollar pres := fun hx => h (List.mem_cons_of_mem _ hx)
      have hstep : (c :: pres) ++ ('$' :: t) ++ suffix
          = c :: (pres ++ ('$' :: t) ++ suffix) := by simp
      have hnp : ¬ ('$' :: t).isPrefixOf (c :: (pres ++ ('$' :: t) ++ suffix)) = true := by
        simp only [List.isPrefixOf, Bool.and_eq_true, beq_iff_eq]
        intro hcontra
        exact hc hcontra.1.symm
      rw [hstep, replaceFirstL, if_neg hnp, ih suffix hcs]
      simp

theorem lookupA_mem {β : Type} :
    ∀ (l : List (Str × β)) (k : Str) (v : β), lookupA l k = some v → (k, v) ∈ l := by
  intro l
  induction l with
  | nil => intro k v h; exact absurd h (by simp [lookupA])
  | cons p ps ih =>
      intro k v h
      rw [lookupA] at h
      by_cases hp : p.1 == k
      · rw [if_pos hp] at h
        have hk : p.1 = k := by simpa [beq_iff_eq] using hp
        have hv : p.2 = v := Option.some.inj h
        have hkv : (k, v) = p := by
          rw [← hk, ← hv]
        rw [hkv]
        exact List.mem_cons_self _ _
      · rw [if_neg hp] at h
        exact List.mem_cons_of_mem _ (ih k v h)

theorem noDollar_phReplacement (utilities : List (Str × (Str → Str)))
    (attrs : List (Str × Str)) (u a : Str)
    (hattrs : ∀ nv ∈ attrs, noDollar nv.2)
    (hutils : ∀ uf ∈ utilities, ∀ v, noDollar v → noDollar (uf.2 v)) :
    noDollar (phReplacement utilities attrs u a) := by
  unfold phReplacement
  cases hv : lookupA attrs a with
  | none => intro hx; simp at hx
  | some v =>
      simp only []
      have hvnd : noDollar v := hattrs (a, v) (lookupA_mem attrs a v hv)
      by_cases hu : u.isEmpty = true
      · rw [if_neg (by simp [hu])]
        exact hvnd
      · rw [if_pos hu]
        cases hf : lookupA utilities u with
        | none => exact hvnd
        | some f => exact hutils (u, f) (lookupA_mem utilities u f hf) v hvnd

theorem runReplacements_assemble (utilities : List (Str × (Str → Str)))
    (attrs : List (Str × Str))
    (hattrs : ∀ nv ∈ attrs, noDollar nv.2)
    (hutils : ∀ uf ∈ utilities, ∀ v, noDollar v → noDollar (uf.2 v)) :
    ∀ (segs : List PhSeg) (pre : Str), noDollar pre → (∀ sg ∈ segs, wfSeg sg) →
      runReplacements utilities attrs (segs.map (fun sg => (phText sg, sg.u, sg.a)))
          (pre ++ assembleTpl [] segs)
        = pre ++ renderTpl utilities attrs [] segs := by
  intro segs
  induction segs with
  | nil =>
      intro pre _ _
      simp [runReplacements, assembleTpl, renderTpl]
  | cons sg rest ih =>
      intro pre hpre hw
      have hwsg := hw sg (List.mem_cons_self _ _)
      have hwrest : ∀ s ∈ rest, wfSeg s := fun s hs => hw s (List.mem_cons_of_mem _ hs)
      have hassemble : pre ++ assembleTpl [] (sg :: rest)
          = pre ++ ('$' :: (sg.u ++ '@' :: sg.a)) ++ (sg.lit ++ assembleTpl [] rest) := by
        simp [assembleTpl, phText]
      rw [List.map_cons, runReplacements, List.foldl_cons, hassemble]
      have hv := noDollar_phReplacement utilities attrs sg.u sg.a hattrs hutils
      have hrepl := replaceFirst_after_noDollar (sg.u ++ '@' :: sg.a)
        (phReplacement utilities attrs sg.u sg.a) pre (sg.lit ++ assembleTpl [] rest) hpre
      have hp1 : (phText sg, sg.u, sg.a).1 = '$' :: (sg.u ++ '@' :: sg.a) := rfl
      rw [hp1, hrepl]
      have hregroup : pre ++ phReplacement utilities attrs sg.u sg.a
            ++ (sg.lit ++ assembleTpl [] rest)
          = (pre ++ phReplacement utilities attrs sg.u sg.a ++ sg.lit)
            ++ assembleTpl [] rest := by
        simp [List.append_assoc]
      rw [hregroup]
      have hpre' : noDollar (pre ++ phReplacement utilities attrs sg.u sg.a ++ sg.lit) := by
        intro hx
        simp only [List.mem_append] at hx
        rcases hx with (hx | hx) | hx
        · exact hpre hx
        · exact hv hx
        · exact hwsg.2.2.2.1 hx
      have hihx := ih (pre ++ phReplacement utilities attrs sg.u sg.a ++ sg.lit) hpre' hwrest
      unfold runReplacements at hihx
      rw [hihx]
      simp [renderTpl, List.append_assoc]

theorem searchIdx_map_ne_zero (o : Option Nat) : o.map (· + 1) ≠ some 0 := by
  cases o <;> simp

/-- Claim C4 (amended): placeholders `$utilName@attrName` are replaced by the
named attribute's value (piped through the named utility when present, the
empty string when the attribute is absent) — UNLESS the first placeholder
match begins at the very start of the string.  `str.search` then returns
index 0, the `if (str.search(...))` truthiness guard fails, and the template
string is returned entirely unchanged. -/
theorem c4_template_interpolation_amended :
    ∀ (utilities : List (Str × (Str → Str))) (attrs : List (Str × Str))
      (lit0 : Str) (segs : List PhSeg),
      noDollar lit0 → (∀ sg ∈ segs, wfSeg sg) →
      (∀ nv ∈ attrs, noDollar nv.2) →
      (∀ uf ∈ utilities, ∀ v, noDollar v → noDollar (uf.2 v)) →
      (lit0 ≠ [] →
        template utilities attrs (assembleTpl lit0 segs)
          = renderTpl utilities attrs lit0 segs) ∧
      (lit0 = [] → segs ≠ [] →
        template utilities attrs (assembleTpl lit0 segs) = assembleTpl lit0 segs) := by
  intro utilities attrs lit0 segs hlit0 hw hattrs hutils
  have hsplit : assembleTpl lit0 segs = lit0 ++ assembleTpl [] segs := by
    simp [assembleTpl]
  constructor
  · intro hne
    obtain ⟨c, lcs, hl⟩ : ∃ c lcs, lit0 = c :: lcs := by
      cases lit0 with
      | nil => exact absurd rfl hne
      | cons c lcs => exact ⟨c, lcs, rfl⟩
    have hc : c ≠ '$' := fun hx => hlit0 (by rw [hl, hx]; exact List.mem_cons_self _ _)
    have hcons : assembleTpl lit0 segs = c :: (lcs ++ assembleTpl [] segs) := by
      rw [hsplit, hl]
      simp
    have hsearch : searchIdx (assembleTpl lit0 segs) ≠ some 0 := by
      rw [hcons, searchIdx, matchPh_none_of_ne c _ hc]
      simp only [Option.isSome_none, Bool.false_eq_true, if_false]
      exact searchIdx_map_ne_zero _
    unfold template
    rw [if_neg hsearch]
    have hfm : findMatches (assembleTpl lit0 segs)
        = segs.map (fun sg => (phText sg, sg.u, sg.a)) := by
      rw [hsplit, findMatches_skip_lit lit0 _ hlit0, findMatches_assemble segs hw]
    rw [hfm, hsplit]
    rw [runReplacements_assemble utilities attrs hattrs hutils segs lit0 hlit0 hw]
    simp [renderTpl]
  · intro hnil hsegs
    obtain ⟨sg, rest, hsg⟩ : ∃ sg rest, segs = sg :: rest := by
      cases segs with
      | nil => exact absurd rfl hsegs
      | cons sg rest => exact ⟨sg, rest, rfl⟩
    have hwsg : wfSeg sg := hw sg (by rw [hsg]; exact List.mem_cons_self _ _)
    have htailhead : ∀ ch, (sg.lit ++ assembleTpl [] rest).head? = some ch →
        attrChar ch = false := by
      intro ch hch
      cases hlt : sg.lit with
      | nil =>
          rw [hlt] at hch
          simp only [List.nil_append] at hch
          exact assembleTpl_head_not_attrChar rest ch hch
      | cons lc lcs =>
          rw [hlt] at hch
          simp only [List.cons_append, List.head?_cons] at hch
          have := hwsg.2.2.2.2 lc (by rw [hlt]; rfl)
          rw [← Option.some.inj hch]
          exact this
    have hmatch := matchPh_at_seg sg (sg.lit ++ assembleTpl [] rest) hwsg htailhead
    have hform : assembleTpl lit0 segs
        = '$' :: ((sg.u ++ '@' :: sg.a) ++ (sg.lit ++ assembleTpl [] rest)) := by
      rw [hnil, hsg]
      simp [assembleTpl, phText]
    have hsearch : searchIdx (assembleTpl lit0 segs) = some 0 := by
      rw [hform, searchIdx]
      have hm2 : matchPh ('$' :: ((sg.u ++ '@' :: sg.a) ++ (sg.lit ++ assembleTpl [] rest)))
          = some (phText sg, sg.u, sg.a) := by
        have : phText sg ++ (sg.lit ++ assembleTpl [] rest)
            = '$' :: ((sg.u ++ '@' :: sg.a) ++ (sg.lit ++ assembleTpl [] rest)) := by
          simp [phText]
        rw [← this]
        exact hmatch
      rw [hm2]
      simp
    unfold template
    rw [if_pos hsearch]

/-- Witness for C4 (amended): a template with a literal head has its
placeholder replaced by the attribute value; the same placeholder at the very
start of the string survives untouched. -/
theorem c4_template_interpolation_amended_witness :
    (template [] [("target".toList, "#n1".toList)]
        (assembleTpl "<a href=\"".toList [⟨[], "target".toList, "\">".toList⟩])
      = renderTpl [] [("target".toList, "#n1".toList)]
          "<a href=\"".toList [⟨[], "target".toList, "\">".toList⟩]) ∧
    (template [] [("target".toList, "#n1".toList)]
        (assembleTpl [] [⟨[], "target".toList, "\">".toList⟩])
      = assembleTpl [] [⟨[], "target".toList, "\">".toList⟩]) :=
  ⟨(c4_template_interpolation_amended [] [("target".toList, "#n1".toList)]
      "<a href=\"".toList [⟨[], "target".toList, "\">".toList⟩]
      (by decide) (by decide) (by decide) (by simp)).1 (by decide),
   (c4_template_interpolation_amended [] [("target".toList, "#n1".toList)]
      [] [⟨[], "target".toList, "\">".toList⟩]
      (by decide) (by decide) (by decide) (by simp)).2 rfl (List.cons_ne_nil _ _)⟩

/- ### preprocess / convertEl (src/CETEI.ts) and copyAndReset (src/utilities.ts) -/

def teiNS : Str := "http://www.tei-c.org/ns/1.0".toList

/-- DOM `setAttribute` on an element of an HTML document: the qualified name
is lower-cased; an existing attribute keeps its position, a new one is
appended. -/
def setAttribute (attrs : List (Str × Str)) (name v : Str) : List (Str × Str) :=
  setA attrs (strLower name) v

/-- One iteration of `convertEl`'s attribute loop: the `xmlns`/non-`role`
copy chain followed by the `xml:id` → `id`, `xml:lang` → `lang`,
`rendition` → `class` (minus `#` markers) and `role` → `tei-role`
special cases. -/
def convertAtt (acc : List (Str × Str)) (nv : Str × Str) : List (Str × Str) :=
  let acc1 :=
    if nv.1 = "xmlns".toList then setAttribute acc "data-xmlns".toList nv.2
    else if nv.1 ≠ "role".toList then setAttribute acc nv.1 nv.2
    else acc
  let acc2 :=
    if nv.1 = "xml:id".toList then setAttribute acc1 "id".toList nv.2 else acc1
  let acc3 :=
    if nv.1 = "xml:lang".toList then setAttribute acc2 "lang".toList nv.2 else acc2
  let acc4 :=
    if nv.1 = "rendition".toList then
      setAttribute acc3 "class".toList (nv.2.filter (fun c => ¬ c == '#'))
    else acc3
  if nv.1 = "role".toList then setAttribute acc4 "tei-role".toList nv.2 else acc4

/-- JS `Array.prototype.join(" ")`. -/
def joinSpace : List Str → Str
  | [] => []
  | [n] => n
  | n :: rest => n ++ ' ' :: joinSpace rest

/-- `getLevel` (src/CETEI.ts): among the element's ancestors (nearest first),
count those with at least one direct TEI `head` child (the inner loop breaks
after the first hit, so each ancestor counts once). -/
def hasTeiHeadChild : XNode → Bool
  | .elem _ _ _ cs =>
      cs.any (fun c => match c with
        | .elem ns nm _ _ => strLower nm == "head".toList && ns == some teiNS
        | _ => false)
  | _ => false

def getLevel (ancestors : List XNode) : Nat :=
  (ancestors.filter hasTeiHeadChild).length

mutual
/-- `textContent` of a source node: the concatenated text descendants. -/
def textContent : XNode → Str
  | .elem _ _ _ cs => textContentList cs
  | .text s => s
  | _ => []

def textContentList : List XNode → Str
  | [] => []
  | c :: rest => textContent c ++ textContentList rest
end

/-- Characters matched by `[^#, >]` in the selector-rewriting regex. -/
def selChar (c : Char) : Bool :=
  !(c == '#' || c == ',' || c == ' ' || c == '>')

/-- Fuel-indexed core of the `([^#, >]+\w*)` → `tei-$1` rewrite: every maximal
run of selector-name characters is prefixed with `tei-`. -/
def prependTeiRunsF : Nat → Str → Str
  | 0, s => s
  | _ + 1, [] => []
  | fuel + 1, c :: cs =>
    if selChar c then
      "tei-".toList ++ (c :: cs).takeWhile selChar
        ++ prependTeiRunsF fuel ((c :: cs).dropWhile selChar)
    else c :: prependTeiRunsF fuel cs

def prependTeiRuns (s : Str) : Str := prependTeiRunsF s.length s

/-- Fuel-indexed global replace (JS `replace` with a `/g` regex on a literal
pattern): non-overlapping occurrences, left to right. -/
def replaceAllF (pat rep : Str) : Nat → Str → Str
  | 0, s => s
  | _ + 1, [] => []
  | fuel + 1, c :: cs =>
    if pat.isPrefixOf (c :: cs) then
      rep ++ replaceAllF pat rep fuel ((c :: cs).drop pat.length)
    else c :: replaceAllF pat rep fuel cs

def replaceAllL (pat rep s : Str) : Str := replaceAllF pat rep s.length s

/-- The CSS rule text compiled from one `<rendition scheme="css">` child of a
`tagsDecl` element. -/
def renditionRule (attrs : List (Str × Str)) (content : Str) : Str :=
  (if containsKey attrs "selector".toList then
    replaceAllL "#tei-".toList "#".toList
        (prependTeiRuns ((lookupA attrs "selector".toList).getD []))
      ++ "\x7b\n".toList ++ content
  else
    '.' :: ((lookupA attrs "xml:id".toList).getD []) ++ "\x7b\n".toList ++ content)
  ++ "\n\x7d\n".toList

/-- The text nodes collected into the synthetic `<style>` element for a
`tagsDecl` source element. -/
def styleRules (children : List XNode) : List CNode :=
  children.filterMap (fun node => match node with
    | .elem _ nm attrs cs =>
        if nm = "rendition".toList ∧ lookupA attrs "scheme".toList = some "css".toList then
          some (.text (renditionRule attrs (textContentList cs)))
        else none
    | _ => none)

/-- JS `a || b` for nullable attribute strings: empty and missing are falsy. -/
def jsOr (a : Option Str) (b : Str) : Str :=
  match a with
  | some v => if v = [] then b else v
  | none => b

/-- All attributes carried by the converted element, in `setAttribute` order:
the converted source attributes, then the provenance attributes
(`data-origname`, `data-origatts`, `data-empty`, `data-level`), then the
injected accessibility attributes for landmark elements. -/
def convAttrs (ancestors : List XNode) (ns : Option Str) (nm : Str)
    (atts : List (Str × Str)) (children : List XNode)
    (init : List (Str × Str)) : List (Str × Str) :=
  let a1 := atts.foldl convertAtt init
  let a2 := setAttribute a1 "data-origname".toList nm
  let a3 :=
    if atts ≠ [] then
      setAttribute a2 "data-origatts".toList (joinSpace (atts.map Prod.fst))
    else a2
  let a4 := if children.isEmpty then setAttribute a3 "data-empty".toList [] else a3
  let a5 :=
    if nm = "head".toList ∧ ns = some teiNS then
      setAttribute a4 "data-level".toList (toString (getLevel ancestors)).toList
    else a4
  let a6 := if nm = "TEI".toList then setAttribute a5 "role".toList "main".toList else a5
  if nm ∈ ["body".toList, "front".toList, "back".toList, "div".toList] then
    setAttribute (setAttribute a6 "role".toList "region".toList)
      "aria-label".toList
      (jsOr (lookupA atts "xml:id".toList) (jsOr (lookupA atts "n".toList) nm))
  else a6

mutual
/-- Embedding of `convertEl` (src/CETEI.ts).  An element whose namespace is
registered becomes `createElement(prefix + "-" + localName.toLowerCase())`
(HTML `createElement` lower-cases the tag); otherwise the element is imported
as-is (under `preprocess` this branch is unreachable because
`learnElementNames` registers every namespace first).  Attributes are copied
through `convertAtt`, provenance and landmark attributes are added by
`convAttrs`, a `tagsDecl` gains a leading synthetic `<style>` child, and the
children are converted in order (non-element children are cloned).  The
`prefixDef` and `hasStyle` bookkeeping touches only converter state, not the
produced tree, and is omitted. -/
def convertEl (nsMap : List (Str × Str)) (ancestors : List XNode) : XNode → CNode
  | .elem ns nm atts children =>
      let nsKey := ns.getD []
      let tag :=
        if containsKey nsMap nsKey then
          strLower (((lookupA nsMap nsKey).getD []) ++ '-' :: strLower nm)
        else nm
      let init : List (Str × Str) :=
        if containsKey nsMap nsKey then [] else atts
      let styleKids := if nm = "tagsDecl".toList then styleRules children else []
      CNode.elem tag (convAttrs ancestors ns nm atts children init)
        ((if !styleKids.isEmpty then [CNode.elem "style".toList [] styleKids] else [])
          ++ convertChildren nsMap (XNode.elem ns nm atts children :: ancestors) children)
  | .text s => .text s
  | .comment s => .comment s
  | .procInst t v => .procInst t v

def convertChildren (nsMap : List (Str × Str)) (ancestors : List XNode) :
    List XNode → List CNode
  | [] => []
  | c :: rest => convertEl nsMap ancestors c :: convertChildren nsMap ancestors rest
end

/-- DOM `removeAttribute`. -/
def removeAttribute (attrs : List (Str × Str)) (name : Str) : List (Str × Str) :=
  attrs.filter (fun p => !(p.1 == strLower name))

/-- The id restoration applied to children pulled out of a hidden
`data-original` container: `data-origid` becomes `id` again. -/
def restoreOrigid : CNode → CNode
  | .elem t a c =>
      if containsKey a "data-origid".toList then
        .elem t
          (removeAttribute
            (setAttribute a "id".toList ((lookupA a "data-origid".toList).getD []))
            "data-origid".toList)
          c
      else .elem t a c
  | other => other

/-- `node.nodeName` (upper-cased for elements of an HTML document) fed back
through `createElement` (which lower-cases it): the clone's tag. -/
def cloneTag (tag : Str) : Str := strLower (strUpper tag)

mutual
/-- Embedding of `copyAndReset`'s inner `clone` (src/utilities.ts): a deep
copy that drops `data-processed`, unwraps a hidden `data-original` container
(restoring original ids and ignoring any later siblings — the source
`return`s there), keeps element children only when they carry
`data-origname` (dropping behavior-generated elements such as the synthetic
`<style>`), and clones non-element children as-is. -/
def cloneReset : CNode → CNode
  | .elem tag attrs children =>
      .elem (cloneTag tag)
        (attrs.foldl
          (fun acc nv =>
            if nv.1 ≠ "data-processed".toList then setAttribute acc nv.1 nv.2 else acc)
          [])
        (cloneKids children)
  | .doc children =>
      .doc (CNode.elem
          (match children.find? (fun n => match n with | .elem _ _ _ => true | _ => false) with
           | some (.elem t _ _) => strUpper t
           | _ => [])
          [] []
        :: cloneKids children)
  | .frag children => .frag (cloneKids children)
  | other => other

def cloneKids : List CNode → List CNode
  | [] => []
  | n :: rest =>
      match n with
      | .elem t a c =>
          if containsKey a "data-original".toList then
            cloneKidsOriginal c
          else if containsKey a "data-origname".toList then
            cloneReset (.elem t a c) :: cloneKids rest
          else cloneKids rest
      | other => other :: cloneKids rest

/-- The unwrap loop for a `data-original` container's children. -/
def cloneKidsOriginal : List CNode → List CNode
  | [] => []
  | n :: rest => restoreOrigid (cloneReset n) :: cloneKidsOriginal rest
end

def copyAndReset (node : CNode) : CNode := cloneReset node

/-- Embedding of `resetAndSerialize` (src/utilities.ts). -/
def resetAndSerialize (el : CNode) (stripElt : Bool) (ws : WSArg) : Str :=
  serialize (copyAndReset el) stripElt ws

/- reference serialization of the SOURCE tree, for claim C1 -/

/-- One source attribute as serialized markup. -/
def refAttr (nv : Str × Str) : Str :=
  ' ' :: nv.1 ++ '=' :: '"' :: nv.2 ++ ['"']

/-- The `role` attribute the conversion injects on landmark elements. -/
def injectedRole (nm : Str) : Str :=
  if nm = "TEI".toList then " role=\"main\"".toList
  else if nm ∈ ["body".toList, "front".toList, "back".toList, "div".toList] then
    " role=\"region\"".toList
  else []

mutual
/-- Reference rendering of a source node, following the spec's words for the
round-trip claim, amended by the injected landmark `role` attribute: original
tag name, original attribute names and values in source order, original text
and comment and processing-instruction content, self-closing for childless
elements. -/
def refSerialize (inject : Bool) : XNode → Str
  | .elem _ nm atts children =>
      '<' :: nm ++ (atts.map refAttr).flatten ++ (if inject then injectedRole nm else [])
        ++ (if children.isEmpty then "/>".toList
            else '>' :: refSerializeList inject children ++ '<' :: '/' :: nm ++ ['>'])
  | .text s => s
  | .comment s => "<!--".toList ++ s ++ "-->".toList
  | .procInst t v => '<' :: '?' :: t ++ ' ' :: v ++ ['?', '>']

def refSerializeList (inject : Bool) : List XNode → Str
  | [] => []
  | c :: rest => refSerialize inject c ++ refSerializeList inject rest
end

/-- The round-trip pipeline of claim C1 at the root-element level: convert the
source element (with the namespace map the preprocess pass would have
learned), reset and serialize without pretty-printing. -/
def roundTrip (nsMap : List (Str × Str)) (x : XNode) : Str :=
  resetAndSerialize (convertEl nsMap [] x) false (WSArg.undef)

/-- Counterexample to claim C1 as stated: a bare TEI root round-trips to
`<TEI role="main"/>` — the conversion injects a live `role` attribute on
landmark elements (`TEI`, `body`, `front`, `back`, `div`) and the serializer
does not exclude `role`, so the original attribute set is not reproduced. -/
theorem c1_counterexample_injected_role :
    roundTrip [(teiNS, "tei".toList)] (.elem (some teiNS) "TEI".toList [] [])
      = "<TEI role=\"main\"/>".toList ∧
    refSerialize false (.elem (some teiNS) "TEI".toList [] []) = "<TEI/>".toList ∧
    roundTrip [(teiNS, "tei".toList)] (.elem (some teiNS) "TEI".toList [] [])
      ≠ refSerialize false (.elem (some teiNS) "TEI".toList [] []) := by
  refine ⟨by decide, by decide, by decide⟩

/- closed form of the converted attribute list -/

/-- The converted attributes contributed by one source attribute, in
`setAttribute` order. -/
def convertOneAttr (nv : Str × Str) : List (Str × Str) :=
  (if nv.1 = "xmlns".toList then [("data-xmlns".toList, nv.2)]
   else if nv.1 ≠ "role".toList then [(strLower nv.1, nv.2)] else [])
  ++ (if nv.1 = "xml:id".toList then [("id".toList, nv.2)] else [])
  ++ (if nv.1 = "xml:lang".toList then [("lang".toList, nv.2)] else [])
  ++ (if nv.1 = "rendition".toList then
        [("class".toList, nv.2.filter (fun c => ¬ c == '#'))] else [])
  ++ (if nv.1 = "role".toList then [("tei-role".toList, nv.2)] else [])

theorem setA_fresh {β : Type} (l : List (Str × β)) (k : Str) (v : β)
    (h : containsKey l k = false) : setA l k v = l ++ [(k, v)] := by
  unfold setA
  rw [if_neg (by simp [h])]

theorem containsKey_eq_mem_keys {β : Type} (l : List (Str × β)) (k : Str) :
    containsKey l k = false ↔ k ∉ l.map Prod.fst := by
  constructor
  · intro h hmem
    have := (containsKey_iff_mem_keys l k).mpr hmem
    rw [h] at this
    exact Bool.false_ne_true this
  · intro h
    by_cases hc : containsKey l k
    · exact absurd ((containsKey_iff_mem_keys l k).mp hc) h
    · exact Bool.of_not_eq_true hc

/-- Keys of the converted attributes of one source attribute. -/
def convKeysSpec (n : Str) : List Str :=
  if n = "xmlns".toList then ["data-xmlns".toList]
  else if n = "xml:id".toList then ["xml:id".toList, "id".toList]
  else if n = "xml:lang".toList then ["xml:lang".toList, "lang".toList]
  else if n = "rendition".toList then ["rendition".toList, "class".toList]
  else if n = "role".toList then ["tei-role".toList]
  else [strLower n]

theorem convertOneAttr_keys (nv : Str × Str) :
    (convertOneAttr nv).map Prod.fst = convKeysSpec nv.1 := by
  unfold convertOneAttr convKeysSpec
  by_cases h1 : nv.1 = "xmlns".toList
  · rw [h1]
    simp
  · rw [if_neg h1]
    by_cases h2 : nv.1 = "xml:id".toList
    · rw [h2]
      simp
      decide
    · by_cases h3 : nv.1 = "xml:lang".toList
      · rw [h3]
        simp
        decide
      · by_cases h4 : nv.1 = "rendition".toList
        · rw [h4]
          simp
          decide
        · by_cases h5 : nv.1 = "role".toList
          · rw [h5]
            simp
          · simp only [String.toList] at h1 h2 h3 h4 h5
            simp [h1, h2, h3, h4, h5]

theorem convertAtt_append (acc : List (Str × Str)) (nv : Str × Str)
    (hfresh : ∀ k ∈ (convertOneAttr nv).map Prod.fst, containsKey acc k = false) :
    convertAtt acc nv = acc ++ convertOneAttr nv := by
  rw [convertOneAttr_keys] at hfresh
  by_cases h1 : nv.1 = "xmlns".toList
  · rw [h1] at hfresh
    have hf := hfresh "data-xmlns".toList (by decide)
    unfold convertAtt convertOneAttr setAttribute
    rw [h1]
    simp only [if_pos rfl]
    rw [show strLower "data-xmlns".toList = "data-xmlns".toList from by decide]
    rw [setA_fresh acc _ nv.2 hf]
    simp
  · by_cases h2 : nv.1 = "xml:id".toList
    · rw [h2] at hfresh
      have hf1 := hfresh "xml:id".toList (by decide)
      have hf2 := hfresh "id".toList (by decide)
      unfold convertAtt convertOneAttr setAttribute
      rw [h2]
      simp only [if_neg (show ¬ ("xml:id".toList = "xmlns".toList) from by decide),
        if_pos (show "xml:id".toList ≠ "role".toList from by decide),
        if_pos rfl,
        if_neg (show ¬ ("xml:id".toList = "xml:lang".toList) from by decide),
        if_neg (show ¬ ("xml:id".toList = "rendition".toList) from by decide),
        if_neg (show ¬ ("xml:id".toList = "role".toList) from by decide)]
      rw [show strLower "xml:id".toList = "xml:id".toList from by decide,
        show strLower "id".toList = "id".toList from by decide]
      rw [setA_fresh acc _ nv.2 hf1]
      have hf2' : containsKey (acc ++ [("xml:id".toList, nv.2)]) "id".toList = false := by
        rw [containsKey_append, hf2]
        have hone : containsKey [("xml:id".toList, nv.2)] "id".toList = false := by
          simp [containsKey]
        rw [hone]
        rfl
      rw [setA_fresh _ _ nv.2 hf2']
      simp
    · by_cases h3 : nv.1 = "xml:lang".toList
      · rw [h3] at hfresh
        have hf1 := hfresh "xml:lang".toList (by decide)
        have hf2 := hfresh "lang".toList (by decide)
        unfold convertAtt convertOneAttr setAttribute
        rw [h3]
        simp only [if_neg (show ¬ ("xml:lang".toList = "xmlns".toList) from by decide),
          if_pos (show "xml:lang".toList ≠ "role".toList from by decide),
          if_pos rfl,
          if_neg (show ¬ ("xml:lang".toList = "xml:id".toList) from by decide),
          if_neg (show ¬ ("xml:lang".toList = "rendition".toList) from by decide),
          if_neg (show ¬ ("xml:lang".toList = "role".toList) from by decide)]
        rw [show strLower "xml:lang".toList = "xml:lang".toList from by decide,
          show strLower "lang".toList = "lang".toList from by decide]
        rw [setA_fresh acc _ nv.2 hf1]
        have hf2' : containsKey (acc ++ [("xml:lang".toList, nv.2)]) "lang".toList = false := by
          rw [containsKey_append, hf2]
          have hone : containsKey [("xml:lang".toList, nv.2)] "lang".toList = false := by
            simp [containsKey]
          rw [hone]
          rfl
        rw [setA_fresh _ _ nv.2 hf2']
        simp
      · by_cases h4 : nv.1 = "rendition".toList
        · rw [h4] at hfresh
          have hf1 := hfresh "rendition".toList (by decide)
          have hf2 := hfresh "class".toList (by decide)
          unfold convertAtt convertOneAttr setAttribute
          rw [h4]
          simp only [if_neg (show ¬ ("rendition".toList = "xmlns".toList) from by decide),
            if_pos (show "rendition".toList ≠ "role".toList from by decide),
            if_pos rfl,
            if_neg (show ¬ ("rendition".toList = "xml:id".toList) from by decide),
            if_neg (show ¬ ("rendition".toList = "xml:lang".toList) from by decide),
            if_neg (show ¬ ("rendition".toList = "role".toList) from by decide)]
          rw [show strLower "rendition".toList = "rendition".toList from by decide,
            show strLower "class".toList = "class".toList from by decide]
          rw [setA_fresh acc _ nv.2 hf1]
          have hf2' : containsKey (acc ++ [("rendition".toList, nv.2)]) "class".toList = false := by
            rw [containsKey_append, hf2]
            have hone : containsKey [("rendition".toList, nv.2)] "class".toList = false := by
              simp [containsKey]
            rw [hone]
            rfl
          rw [setA_fresh _ _ _ hf2']
          simp
        · by_cases h5 : nv.1 = "role".toList
          · rw [h5] at hfresh
            have hf := hfresh "tei-role".toList (by decide)
            unfold convertAtt convertOneAttr setAttribute
            rw [h5]
            simp only [if_neg (show ¬ ("role".toList = "xmlns".toList) from by decide),
              if_neg (show ¬ ("role".toList ≠ "role".toList) from by simp),
              if_neg (show ¬ ("role".toList = "xml:id".toList) from by decide),
              if_neg (show ¬ ("role".toList = "xml:lang".toList) from by decide),
              if_neg (show ¬ ("role".toList = "rendition".toList) from by decide),
              if_pos rfl]
            rw [show strLower "tei-role".toList = "tei-role".toList from by decide]
            rw [setA_fresh acc _ nv.2 hf]
            simp
          · rw [convKeysSpec, if_neg h1, if_neg h2, if_neg h3, if_neg h4, if_neg h5] at hfresh
            have hf := hfresh (strLower nv.1) (by simp)
            unfold convertAtt convertOneAttr setAttribute
            simp only [if_neg h1, if_pos h5, if_neg h2, if_neg h3, if_neg h4]
            rw [setA_fresh acc _ nv.2 hf]
            simp only [String.toList] at h5
            simp [h5]

/- character-case facts used for the round-trip claim: lower-casing is
idempotent, so DOM `setAttribute` leaves already-lowered names unchanged -/

theorem toNat_ofNat_lt {n : Nat} (h : n < 0xd800) : (Char.ofNat n).toNat = n := by
  have hv : n.isValidChar := Or.inl h
  unfold Char.ofNat
  rw [dif_pos hv]
  simp [Char.ofNatAux, Char.toNat, UInt32.toNat, BitVec.toNat_ofNatLt]

theorem char_eq_of_toNat_eq {a b : Char} (h : a.toNat = b.toNat) : a = b := by
  have : Char.ofNat a.toNat = Char.ofNat b.toNat := by rw [h]
  simpa using this

theorem toNat_toLower (c : Char) :
    (Char.toLower c).toNat = if 65 ≤ c.toNat ∧ c.toNat ≤ 90 then c.toNat + 32 else c.toNat := by
  unfold Char.toLower
  by_cases h : c.toNat ≥ 65 ∧ c.toNat ≤ 90
  · rw [if_pos h, if_pos h, toNat_ofNat_lt (by omega)]
  · rw [if_neg h, if_neg h]

theorem lower_idem (c : Char) : Char.toLower (Char.toLower c) = Char.toLower c := by
  apply char_eq_of_toNat_eq
  simp only [toNat_toLower]
  split_ifs <;> omega

theorem strLower_idem (s : Str) : strLower (strLower s) = strLower s := by
  unfold strLower
  rw [List.map_map]
  apply List.map_congr_left
  intro c _
  exact lower_idem c

/- lookup in a concatenation whose left part misses the key -/

theorem lookupA_append_right {β : Type} (l1 l2 : List (Str × β)) (k : Str)
    (h : containsKey l1 k = false) : lookupA (l1 ++ l2) k = lookupA l2 k := by
  induction l1 with
  | nil => rfl
  | cons p ps ih =>
      have hcons : containsKey (p :: ps) k = (p.1 == k || containsKey ps k) := rfl
      rw [hcons] at h
      rcases Bool.or_eq_false_iff.mp h with ⟨h1, h2⟩
      simp only [List.cons_append, lookupA]
      rw [if_neg (by simp [h1])]
      exact ih h2

/- `split(" ")` inverts `join(" ")` on nonempty, space-free names -/

theorem splitSpace_no_space (s : Str) (h : ' ' ∉ s) : splitSpace s = [s] := by
  induction s with
  | nil => rfl
  | cons c cs ih =>
      have hc : ¬ c = ' ' := fun hx => h (hx ▸ List.mem_cons_self c cs)
      have hcs : ' ' ∉ cs := fun hx => h (List.mem_cons_of_mem c hx)
      rw [splitSpace, if_neg hc, ih hcs]

theorem splitSpace_break (n t : Str) (h : ' ' ∉ n) :
    splitSpace (n ++ ' ' :: t) = n :: splitSpace t := by
  induction n with
  | nil => simp [splitSpace]
  | cons c cs ih =>
      have hc : ¬ c = ' ' := fun hx => h (hx ▸ List.mem_cons_self c cs)
      have hcs : ' ' ∉ cs := fun hx => h (List.mem_cons_of_mem c hx)
      rw [List.cons_append, splitSpace, if_neg hc, ih hcs]

theorem split_join (names : List Str) (hne : names ≠ [])
    (h : ∀ n ∈ names, n ≠ [] ∧ ' ' ∉ n) :
    splitSpace (joinSpace names) = names := by
  induction names with
  | nil => exact absurd rfl hne
  | cons n rest ih =>
      cases rest with
      | nil =>
          have hn := h n (List.mem_cons_self n [])
          rw [joinSpace]
          exact splitSpace_no_space n hn.2
      | cons m rest' =>
          have hn := h n (List.mem_cons_self n _)
          rw [joinSpace, splitSpace_break n _ hn.2]
          rw [ih (fun hx => List.noConfusion hx) (fun x hx => h x (List.mem_cons_of_mem n hx))]
          exact fun hx => List.noConfusion hx

/- well-formedness of source attribute names for the round-trip claim -/

/-- The attribute names the converter treats specially. -/
def specialAttNames : List Str :=
  ["xmlns".toList, "xml:id".toList, "xml:lang".toList, "rendition".toList, "role".toList]

/-- A source attribute name the round trip preserves: either one of the
specially-handled names, or a nonempty space-free name whose lower-casing
collides with none of the attribute families the converter and serializer
treat specially (`data-*`, `tei-*`, `aria-*`, `id`, `lang`, `class`,
`role`). -/
def wfAttName (n : Str) : Bool :=
  decide (n ∈ specialAttNames) ||
    (decide (n ≠ []) && decide (' ' ∉ n)
      && !("data-".toList.isPrefixOf (strLower n))
      && !("tei-".toList.isPrefixOf (strLower n))
      && !("aria-".toList.isPrefixOf (strLower n))
      && !(decide (strLower n ∈ ["id".toList, "lang".toList, "class".toList, "role".toList])))

/-- Attribute keys the conversion pipeline itself writes or inspects. -/
def badKeys : List Str :=
  ["data-origname".toList, "data-origatts".toList, "data-empty".toList,
   "data-level".toList, "role".toList, "aria-label".toList,
   "data-processed".toList, "data-original".toList, "data-origid".toList]

theorem wfAttName_shape (n : Str) (h : wfAttName n = true) : n ≠ [] ∧ ' ' ∉ n := by
  unfold wfAttName at h
  rcases Bool.or_eq_true_iff.mp h with hsp | hgen
  · have hmem : n ∈ specialAttNames := of_decide_eq_true hsp
    simp only [specialAttNames, List.mem_cons, List.not_mem_nil, or_false] at hmem
    rcases hmem with h1 | h1 | h1 | h1 | h1 <;> subst h1 <;> exact ⟨by decide, by decide⟩
  · simp only [Bool.and_eq_true, decide_eq_true_eq] at hgen
    exact ⟨hgen.1.1.1.1.1, hgen.1.1.1.1.2⟩

theorem wfAttName_generic (n : Str) (h : wfAttName n = true)
    (h1 : ¬ n = "xmlns".toList) (h2 : ¬ n = "xml:id".toList)
    (h3 : ¬ n = "xml:lang".toList) (h4 : ¬ n = "rendition".toList)
    (h5 : ¬ n = "role".toList) :
    n ≠ [] ∧ ' ' ∉ n
      ∧ "data-".toList.isPrefixOf (strLower n) = false
      ∧ "tei-".toList.isPrefixOf (strLower n) = false
      ∧ "aria-".toList.isPrefixOf (strLower n) = false
      ∧ strLower n ∉ ["id".toList, "lang".toList, "class".toList, "role".toList] := by
  unfold wfAttName at h
  rcases Bool.or_eq_true_iff.mp h with hsp | hgen
  · have hmem : n ∈ specialAttNames := of_decide_eq_true hsp
    simp only [specialAttNames, List.mem_cons, List.not_mem_nil, or_false] at hmem
    rcases hmem with hx | hx | hx | hx | hx
    · exact absurd hx h1
    · exact absurd hx h2
    · exact absurd hx h3
    · exact absurd hx h4
    · exact absurd hx h5
  · simp only [Bool.and_eq_true, decide_eq_true_eq, Bool.not_eq_eq_eq_not,
      Bool.not_true] at hgen
    obtain ⟨⟨⟨⟨⟨hne, hsp2⟩, hd⟩, ht⟩, ha⟩, hm⟩ := hgen
    refine ⟨hne, hsp2, hd, ht, ha, ?_⟩
    intro hx
    rw [decide_eq_true hx] at hm
    exact Bool.noConfusion hm

theorem convKeys_facts (n : Str) (h : wfAttName n = true) :
    ∀ k ∈ convKeysSpec n, strLower k = k ∧ k ∉ badKeys := by
  by_cases h1 : n = "xmlns".toList
  · subst h1; decide
  · by_cases h2 : n = "xml:id".toList
    · subst h2; decide
    · by_cases h3 : n = "xml:lang".toList
      · subst h3; decide
      · by_cases h4 : n = "rendition".toList
        · subst h4; decide
        · by_cases h5 : n = "role".toList
          · subst h5; decide
          · obtain ⟨-, -, hd, ht, ha, hm⟩ := wfAttName_generic n h h1 h2 h3 h4 h5
            intro k hk
            rw [convKeysSpec, if_neg h1, if_neg h2, if_neg h3, if_neg h4, if_neg h5] at hk
            simp only [List.mem_singleton] at hk
            subst hk
            refine ⟨strLower_idem n, ?_⟩
            intro hb
            simp only [badKeys, List.mem_cons, List.not_mem_nil, or_false] at hb
            rcases hb with hx | hx | hx | hx | hx | hx | hx | hx | hx
            · rw [hx] at hd; exact absurd hd (by decide)
            · rw [hx] at hd; exact absurd hd (by decide)
            · rw [hx] at hd; exact absurd hd (by decide)
            · rw [hx] at hd; exact absurd hd (by decide)
            · exact hm (by rw [hx]; decide)
            · rw [hx] at ha; exact absurd ha (by decide)
            · rw [hx] at hd; exact absurd hd (by decide)
            · rw [hx] at hd; exact absurd hd (by decide)
            · rw [hx] at hd; exact absurd hd (by decide)

/- closed form of the attribute-conversion fold -/

/-- All converted keys generated by a source attribute list. -/
def flatKeys (atts : List (Str × Str)) : List Str :=
  atts.flatMap (fun nv => convKeysSpec nv.1)

theorem flatKeys_cons (nv : Str × Str) (rest : List (Str × Str)) :
    flatKeys (nv :: rest) = convKeysSpec nv.1 ++ flatKeys rest := by
  simp [flatKeys]

theorem flatMap_map_fst (atts : List (Str × Str)) :
    (atts.flatMap convertOneAttr).map Prod.fst = flatKeys atts := by
  induction atts with
  | nil => rfl
  | cons nv rest ih =>
      rw [List.flatMap_cons, List.map_append, ih, convertOneAttr_keys, flatKeys_cons]

theorem foldl_convertAtt (atts : List (Str × Str)) (acc : List (Str × Str))
    (hfresh : ∀ k ∈ flatKeys atts, containsKey acc k = false)
    (hnd : (flatKeys atts).Nodup) :
    atts.foldl convertAtt acc = acc ++ atts.flatMap convertOneAttr := by
  induction atts generalizing acc with
  | nil => simp
  | cons nv rest ih =>
      rw [flatKeys_cons] at hfresh hnd
      have hstep : convertAtt acc nv = acc ++ convertOneAttr nv := by
        apply convertAtt_append
        intro k hk
        rw [convertOneAttr_keys] at hk
        exact hfresh k (List.mem_append_left _ hk)
      rw [List.foldl_cons, hstep, List.flatMap_cons, ← List.append_assoc]
      apply ih
      · intro k hk
        rw [containsKey_append, hfresh k (List.mem_append_right _ hk), Bool.false_or]
        rw [← Bool.not_eq_true]
        intro hc
        have hmem := (containsKey_iff_mem_keys _ k).mp hc
        rw [convertOneAttr_keys] at hmem
        exact (List.disjoint_of_nodup_append hnd) hmem hk
      · exact hnd.of_append_right

/-- `setAttribute` with an already-lowered key absent from the map appends. -/
theorem setAttribute_fresh (l : List (Str × Str)) (k v : Str)
    (hlow : strLower k = k) (h : containsKey l k = false) :
    setAttribute l k v = l ++ [(k, v)] := by
  rw [setAttribute, hlow, setA_fresh l k v h]

theorem ite_setAttribute (c : Prop) [Decidable c] (l : List (Str × Str)) (k v : Str)
    (hlow : strLower k = k) (h : containsKey l k = false) :
    (if c then setAttribute l k v else l) = l ++ (if c then [(k, v)] else []) := by
  by_cases hc : c
  · rw [if_pos hc, if_pos hc, setAttribute_fresh l k v hlow h]
  · rw [if_neg hc, if_neg hc, List.append_nil]

theorem containsKey_ite {β : Type} (c : Prop) [Decidable c]
    (l1 l2 : List (Str × β)) (k : Str) :
    containsKey (if c then l1 else l2) k
      = if c then containsKey l1 k else containsKey l2 k := by
  by_cases hc : c <;> simp [hc]

/-- The provenance and landmark attributes `convAttrs` appends after the
converted source attributes. -/
def provTail (ancestors : List XNode) (ns : Option Str) (nm : Str)
    (atts : List (Str × Str)) (children : List XNode) : List (Str × Str) :=
  [("data-origname".toList, nm)]
  ++ (if atts ≠ [] then
        [("data-origatts".toList, joinSpace (atts.map Prod.fst))] else [])
  ++ (if children.isEmpty then [("data-empty".toList, ([] : Str))] else [])
  ++ (if nm = "head".toList ∧ ns = some teiNS then
        [("data-level".toList, (toString (getLevel ancestors)).toList)] else [])
  ++ (if nm = "TEI".toList then [("role".toList, "main".toList)] else [])
  ++ (if nm ∈ ["body".toList, "front".toList, "back".toList, "div".toList] then
        [("role".toList, "region".toList),
         ("aria-label".toList,
           jsOr (lookupA atts "xml:id".toList) (jsOr (lookupA atts "n".toList) nm))]
      else [])

theorem convAttrs_closed (anc : List XNode) (ns : Option Str) (nm : Str)
    (atts : List (Str × Str)) (cs : List XNode)
    (hnd : (flatKeys atts).Nodup)
    (hwf : ∀ nv ∈ atts, wfAttName nv.1 = true) :
    convAttrs anc ns nm atts cs []
      = atts.flatMap convertOneAttr ++ provTail anc ns nm atts cs := by
  have hbad : ∀ k ∈ badKeys, containsKey (atts.flatMap convertOneAttr) k = false := by
    intro k hk
    rw [← Bool.not_eq_true]
    intro hc
    have hmem := (containsKey_iff_mem_keys _ k).mp hc
    rw [flatMap_map_fst] at hmem
    simp only [flatKeys, List.mem_flatMap] at hmem
    obtain ⟨nv, hnv, hkk⟩ := hmem
    exact (convKeys_facts nv.1 (hwf nv hnv) k hkk).2 hk
  have hb1 := hbad "data-origname".toList (by decide)
  have hb2 := hbad "data-origatts".toList (by decide)
  have hb3 := hbad "data-empty".toList (by decide)
  have hb4 := hbad "data-level".toList (by decide)
  have hb5 := hbad "role".toList (by decide)
  have hb6 := hbad "aria-label".toList (by decide)
  simp only [convAttrs]
  rw [foldl_convertAtt atts [] (fun k _ => rfl) hnd, List.nil_append]
  rw [setAttribute_fresh _ "data-origname".toList nm (by decide) hb1]
  rw [ite_setAttribute _ _ "data-origatts".toList _ (by decide)
    (by simp only [containsKey_append, hb2]; rfl)]
  rw [ite_setAttribute _ _ "data-empty".toList _ (by decide)
    (by simp only [containsKey_append, containsKey_ite, hb3]; split_ifs <;> rfl)]
  rw [ite_setAttribute _ _ "data-level".toList _ (by decide)
    (by simp only [containsKey_append, containsKey_ite, hb4]; split_ifs <;> rfl)]
  rw [ite_setAttribute _ _ "role".toList _ (by decide)
    (by simp only [containsKey_append, containsKey_ite, hb5]; split_ifs <;> rfl)]
  rw [show (if nm ∈ ["body".toList, "front".toList, "back".toList, "div".toList] then
        setAttribute
          (setAttribute
            (atts.flatMap convertOneAttr
              ++ [("data-origname".toList, nm)]
              ++ (if atts ≠ [] then
                    [("data-origatts".toList, joinSpace (atts.map Prod.fst))] else [])
              ++ (if cs.isEmpty then [("data-empty".toList, ([] : Str))] else [])
              ++ (if nm = "head".toList ∧ ns = some teiNS then
                    [("data-level".toList, (toString (getLevel anc)).toList)] else [])
              ++ (if nm = "TEI".toList then [("role".toList, "main".toList)] else []))
            "role".toList "region".toList)
          "aria-label".toList
          (jsOr (lookupA atts "xml:id".toList) (jsOr (lookupA atts "n".toList) nm))
      else
        (atts.flatMap convertOneAttr
          ++ [("data-origname".toList, nm)]
          ++ (if atts ≠ [] then
                [("data-origatts".toList, joinSpace (atts.map Prod.fst))] else [])
          ++ (if cs.isEmpty then [("data-empty".toList, ([] : Str))] else [])
          ++ (if nm = "head".toList ∧ ns = some teiNS then
                [("data-level".toList, (toString (getLevel anc)).toList)] else [])
          ++ (if nm = "TEI".toList then [("role".toList, "main".toList)] else [])))
      = (atts.flatMap convertOneAttr
          ++ [("data-origname".toList, nm)]
          ++ (if atts ≠ [] then
                [("data-origatts".toList, joinSpace (atts.map Prod.fst))] else [])
          ++ (if cs.isEmpty then [("data-empty".toList, ([] : Str))] else [])
          ++ (if nm = "head".toList ∧ ns = some teiNS then
                [("data-level".toList, (toString (getLevel anc)).toList)] else [])
          ++ (if nm = "TEI".toList then [("role".toList, "main".toList)] else []))
        ++ (if nm ∈ ["body".toList, "front".toList, "back".toList, "div".toList] then
              [("role".toList, "region".toList),
               ("aria-label".toList,
                 jsOr (lookupA atts "xml:id".toList) (jsOr (lookupA atts "n".toList) nm))]
            else []) from ?_]
  · simp [provTail, List.append_assoc]
  · by_cases hE : nm ∈ ["body".toList, "front".toList, "back".toList, "div".toList]
    · have hTEI : ¬ nm = "TEI".toList := by
        intro hx
        rw [hx] at hE
        exact absurd hE (by decide)
      rw [if_pos hE, if_pos hE]
      rw [if_neg hTEI]
      rw [setAttribute_fresh _ "role".toList _ (by decide)
        (by simp only [containsKey_append, containsKey_ite, hb5, List.append_nil]
            split_ifs <;> rfl)]
      rw [setAttribute_fresh _ "aria-label".toList _ (by decide)
        (by simp only [containsKey_append, containsKey_ite, hb6, List.append_nil]
            split_ifs <;> rfl)]
      simp [List.append_assoc]
    · rw [if_neg hE, if_neg hE, List.append_nil]

/- the clone's attribute re-fold is the identity on the converted list -/

theorem refold_id : ∀ (l acc : List (Str × Str)),
    (∀ nv ∈ l, strLower nv.1 = nv.1 ∧ nv.1 ≠ "data-processed".toList) →
    ((l.map Prod.fst).Nodup) →
    (∀ nv ∈ l, containsKey acc nv.1 = false) →
    l.foldl
      (fun acc nv =>
        if nv.1 ≠ "data-processed".toList then setAttribute acc nv.1 nv.2 else acc)
      acc = acc ++ l := by
  intro l
  induction l with
  | nil => intro acc _ _ _; simp
  | cons nv rest ih =>
      intro acc hl hnd hfresh
      obtain ⟨hlow, hdp⟩ := hl nv (List.mem_cons_self nv rest)
      rw [List.foldl_cons, if_pos hdp,
        setAttribute_fresh acc nv.1 nv.2 hlow (hfresh nv (List.mem_cons_self nv rest))]
      rw [List.map_cons, List.nodup_cons] at hnd
      have hfr' : ∀ p ∈ rest, containsKey (acc ++ [nv]) p.1 = false := by
        intro p hp
        rw [containsKey_append, hfresh p (List.mem_cons_of_mem nv hp), Bool.false_or]
        have hne : ¬ (nv.1 == p.1) = true := by
          intro hx
          exact hnd.1 (by rw [beq_iff_eq.mp hx]; exact List.mem_map_of_mem Prod.fst hp)
        have hck : containsKey [nv] p.1 = (nv.1 == p.1 || false) := rfl
        rw [hck, Bool.or_false]
        exact Bool.of_not_eq_true hne
      rw [ih (acc ++ [nv]) (fun p hp => hl p (List.mem_cons_of_mem nv hp)) hnd.2 hfr']
      simp

/-- Every key in the provenance tail is one of the six fixed names. -/
theorem provTail_keys_sub (anc : List XNode) (ns : Option Str) (nm : Str)
    (atts : List (Str × Str)) (cs : List XNode) :
    ∀ nv ∈ provTail anc ns nm atts cs,
      nv.1 ∈ ["data-origname".toList, "data-origatts".toList, "data-empty".toList,
        "data-level".toList, "role".toList, "aria-label".toList] := by
  intro nv h
  simp only [provTail, List.append_assoc, List.mem_append, List.mem_cons,
    List.not_mem_nil, or_false] at h
  rcases h with h | h | h | h | h | h
  · rw [h]; simp
  · split_ifs at h
    · simp only [List.mem_singleton] at h
      rw [h]; simp
    · exact absurd h (List.not_mem_nil nv)
  · split_ifs at h
    · simp only [List.mem_singleton] at h
      rw [h]; simp
    · exact absurd h (List.not_mem_nil nv)
  · split_ifs at h
    · simp only [List.mem_singleton] at h
      rw [h]; simp
    · exact absurd h (List.not_mem_nil nv)
  · split_ifs at h
    · simp only [List.mem_singleton] at h
      rw [h]; simp
    · exact absurd h (List.not_mem_nil nv)
  · split_ifs at h
    · simp only [List.mem_cons, List.not_mem_nil, or_false] at h
      rcases h with h | h <;> (rw [h]; simp)
    · exact absurd h (List.not_mem_nil nv)

theorem provTail_keys_eq (anc : List XNode) (ns : Option Str) (nm : Str)
    (atts : List (Str × Str)) (cs : List XNode) :
    (provTail anc ns nm atts cs).map Prod.fst
      = ["data-origname".toList]
        ++ (if atts ≠ [] then ["data-origatts".toList] else [])
        ++ (if cs.isEmpty then ["data-empty".toList] else [])
        ++ (if nm = "head".toList ∧ ns = some teiNS then ["data-level".toList] else [])
        ++ (if nm = "TEI".toList then ["role".toList] else [])
        ++ (if nm ∈ ["body".toList, "front".toList, "back".toList, "div".toList] then
              ["role".toList, "aria-label".toList] else []) := by
  simp only [provTail, List.map_append, apply_ite (List.map Prod.fst),
    List.map_cons, List.map_nil]

theorem nodup_ite_chain (c1 c2 c3 c4 c5 : Prop)
    [Decidable c1] [Decidable c2] [Decidable c3] [Decidable c4] [Decidable c5]
    (hex : ¬ (c4 ∧ c5)) :
    (["data-origname".toList]
      ++ (if c1 then ["data-origatts".toList] else [])
      ++ (if c2 then ["data-empty".toList] else [])
      ++ (if c3 then ["data-level".toList] else [])
      ++ (if c4 then ["role".toList] else [])
      ++ (if c5 then ["role".toList, "aria-label".toList] else [])).Nodup := by
  by_cases h4 : c4
  · have h5 : ¬ c5 := fun hh => hex ⟨h4, hh⟩
    by_cases h1 : c1 <;> by_cases h2 : c2 <;> by_cases h3 : c3 <;>
      (simp [h1, h2, h3, h4, h5]; try decide)
  · by_cases h5 : c5 <;> by_cases h1 : c1 <;> by_cases h2 : c2 <;> by_cases h3 : c3 <;>
      (simp [h1, h2, h3, h4, h5]; try decide)

theorem provTail_keys_nodup (anc : List XNode) (ns : Option Str) (nm : Str)
    (atts : List (Str × Str)) (cs : List XNode) :
    ((provTail anc ns nm atts cs).map Prod.fst).Nodup := by
  rw [provTail_keys_eq]
  apply nodup_ite_chain
  rintro ⟨h4, h5⟩
  rw [h4] at h5
  exact absurd h5 (by decide)

/- facts about the full converted attribute list -/

theorem flat_no_badKey (atts : List (Str × Str))
    (hwf : ∀ nv ∈ atts, wfAttName nv.1 = true) :
    ∀ k ∈ badKeys, containsKey (atts.flatMap convertOneAttr) k = false := by
  intro k hk
  rw [← Bool.not_eq_true]
  intro hc
  have hmem := (containsKey_iff_mem_keys _ k).mp hc
  rw [flatMap_map_fst] at hmem
  simp only [flatKeys, List.mem_flatMap] at hmem
  obtain ⟨nv, hnv, hkk⟩ := hmem
  exact (convKeys_facts nv.1 (hwf nv hnv) k hkk).2 hk

theorem prov_mem_names (anc : List XNode) (ns : Option Str) (nm : Str)
    (atts : List (Str × Str)) (cs : List XNode) (k : Str)
    (h : k ∈ (provTail anc ns nm atts cs).map Prod.fst) :
    k ∈ ["data-origname".toList, "data-origatts".toList, "data-empty".toList,
      "data-level".toList, "role".toList, "aria-label".toList] := by
  obtain ⟨nv, hnv, hk⟩ := List.mem_map.mp h
  rw [← hk]
  exact provTail_keys_sub anc ns nm atts cs nv hnv

theorem cattrs_entry_facts (anc : List XNode) (ns : Option Str) (nm : Str)
    (atts : List (Str × Str)) (cs : List XNode)
    (hwf : ∀ nv ∈ atts, wfAttName nv.1 = true) :
    ∀ nv ∈ atts.flatMap convertOneAttr ++ provTail anc ns nm atts cs,
      strLower nv.1 = nv.1 ∧ nv.1 ≠ "data-processed".toList := by
  intro nv hnv
  rcases List.mem_append.mp hnv with hm | hm
  · have hkm : nv.1 ∈ (atts.flatMap convertOneAttr).map Prod.fst :=
      List.mem_map_of_mem Prod.fst hm
    rw [flatMap_map_fst] at hkm
    simp only [flatKeys, List.mem_flatMap] at hkm
    obtain ⟨a, ha, hka⟩ := hkm
    obtain ⟨hlow, hbad⟩ := convKeys_facts a.1 (hwf a ha) nv.1 hka
    refine ⟨hlow, fun hx => hbad ?_⟩
    rw [hx]; decide
  · have hfact : ∀ k ∈ ["data-origname".toList, "data-origatts".toList,
        "data-empty".toList, "data-level".toList, "role".toList, "aria-label".toList],
        strLower k = k ∧ k ≠ "data-processed".toList := by decide
    exact hfact nv.1 (provTail_keys_sub anc ns nm atts cs nv hm)

theorem cattrs_keys_nodup (anc : List XNode) (ns : Option Str) (nm : Str)
    (atts : List (Str × Str)) (cs : List XNode)
    (hnd : (flatKeys atts).Nodup)
    (hwf : ∀ nv ∈ atts, wfAttName nv.1 = true) :
    ((atts.flatMap convertOneAttr ++ provTail anc ns nm atts cs).map Prod.fst).Nodup := by
  rw [List.map_append]
  apply List.Nodup.append
  · rw [flatMap_map_fst]; exact hnd
  · exact provTail_keys_nodup anc ns nm atts cs
  · intro k hk1 hk2
    have hnames := prov_mem_names anc ns nm atts cs k hk2
    rw [flatMap_map_fst] at hk1
    simp only [flatKeys, List.mem_flatMap] at hk1
    obtain ⟨a, ha, hka⟩ := hk1
    have hbad := (convKeys_facts a.1 (hwf a ha) k hka).2
    apply hbad
    have hsub : ∀ x ∈ ["data-origname".toList, "data-origatts".toList,
        "data-empty".toList, "data-level".toList, "role".toList, "aria-label".toList],
        x ∈ badKeys := by decide
    exact hsub k hnames

theorem cattrs_no_key (anc : List XNode) (ns : Option Str) (nm : Str)
    (atts : List (Str × Str)) (cs : List XNode)
    (hwf : ∀ nv ∈ atts, wfAttName nv.1 = true) (k : Str)
    (hbadk : k ∈ badKeys)
    (hnotprov : k ∉ ["data-origname".toList, "data-origatts".toList, "data-empty".toList,
      "data-level".toList, "role".toList, "aria-label".toList]) :
    containsKey (atts.flatMap convertOneAttr ++ provTail anc ns nm atts cs) k = false := by
  rw [containsKey_append, flat_no_badKey atts hwf k hbadk, Bool.false_or,
    ← Bool.not_eq_true]
  intro hc
  exact hnotprov (prov_mem_names anc ns nm atts cs k
    ((containsKey_iff_mem_keys _ k).mp hc))

theorem cattrs_dataOrigname (anc : List XNode) (ns : Option Str) (nm : Str)
    (atts : List (Str × Str)) (cs : List XNode)
    (hwf : ∀ nv ∈ atts, wfAttName nv.1 = true) :
    dataOrigname (atts.flatMap convertOneAttr ++ provTail anc ns nm atts cs) = nm := by
  unfold dataOrigname
  rw [lookupA_append_right _ _ _ (flat_no_badKey atts hwf _ (by decide))]
  rfl

theorem cattrs_has_origname (anc : List XNode) (ns : Option Str) (nm : Str)
    (atts : List (Str × Str)) (cs : List XNode) :
    containsKey (atts.flatMap convertOneAttr ++ provTail anc ns nm atts cs)
      "data-origname".toList = true := by
  rw [containsKey_append]
  have h2 : containsKey (provTail anc ns nm atts cs) "data-origname".toList = true := rfl
  rw [h2, Bool.or_true]

theorem cattrs_no_original (anc : List XNode) (ns : Option Str) (nm : Str)
    (atts : List (Str × Str)) (cs : List XNode)
    (hwf : ∀ nv ∈ atts, wfAttName nv.1 = true) :
    containsKey (atts.flatMap convertOneAttr ++ provTail anc ns nm atts cs)
      "data-original".toList = false :=
  cattrs_no_key anc ns nm atts cs hwf "data-original".toList (by decide) (by decide)

theorem cattrs_origAttNames (anc : List XNode) (ns : Option Str) (nm : Str)
    (atts : List (Str × Str)) (cs : List XNode)
    (hwf : ∀ nv ∈ atts, wfAttName nv.1 = true) :
    origAttNames (atts.flatMap convertOneAttr ++ provTail anc ns nm atts cs)
      = if atts = [] then [] else atts.map Prod.fst := by
  unfold origAttNames
  by_cases hA : atts = []
  · subst hA
    have hck : containsKey (([] : List (Str × Str)).flatMap convertOneAttr
        ++ provTail anc ns nm [] cs) "data-origatts".toList = false := by
      simp only [List.flatMap_nil, List.nil_append, provTail, containsKey_append,
        containsKey_ite]
      rw [if_neg (by simp : ¬ (([] : List (Str × Str)) ≠ []))]
      split_ifs <;> rfl
    rw [hck]
    simp
  · have h2 : containsKey (provTail anc ns nm atts cs) "data-origatts".toList = true := by
      simp only [provTail, containsKey_append, containsKey_ite]
      rw [if_pos hA]
      split_ifs <;> rfl
    have hc : containsKey (atts.flatMap convertOneAttr ++ provTail anc ns nm atts cs)
        "data-origatts".toList = true := by
      rw [containsKey_append, flat_no_badKey atts hwf _ (by decide), Bool.false_or, h2]
    rw [hc]
    have hl : lookupA (provTail anc ns nm atts cs) "data-origatts".toList
        = some (joinSpace (atts.map Prod.fst)) := by
      simp only [provTail]
      rw [if_pos hA]
      rfl
    rw [if_pos rfl,
      lookupA_append_right _ _ _ (flat_no_badKey atts hwf _ (by decide)), hl]
    have hnames : ∀ n ∈ atts.map Prod.fst, n ≠ [] ∧ ' ' ∉ n := by
      intro n hn
      obtain ⟨nv, hnv, hk⟩ := List.mem_map.mp hn
      rw [← hk]
      exact wfAttName_shape nv.1 (hwf nv hnv)
    rw [Option.getD_some, split_join (atts.map Prod.fst) (by simpa using hA) hnames,
      if_neg hA]

/- restoring original attribute spellings -/

theorem find_lowered (names : List Str) (hnodup : (names.map strLower).Nodup)
    (x : Str) (hx : x ∈ names) :
    names.find? (fun e => strLower e == strLower x) = some x := by
  induction names with
  | nil => exact absurd hx (List.not_mem_nil x)
  | cons e rest ih =>
      rw [List.map_cons, List.nodup_cons] at hnodup
      by_cases he : strLower e = strLower x
      · have hex : x = e := by
          rcases List.mem_cons.mp hx with h | h
          · exact h
          · exact absurd (he ▸ List.mem_map_of_mem strLower h) hnodup.1
        rw [List.find?_cons_of_pos _ (by simp [he]), hex]
      · rw [List.find?_cons_of_neg _ (by simp [he])]
        have hxr : x ∈ rest := by
          rcases List.mem_cons.mp hx with h | h
          · exact absurd (by rw [h]) he
          · exact h
        exact ih hnodup.2 hxr

theorem findOrig_self (names : List Str) (hnodup : (names.map strLower).Nodup)
    (x : Str) (hx : x ∈ names) (hne : x ≠ []) :
    findOrig names (strLower x) = x := by
  unfold findOrig
  rw [find_lowered names hnodup x hx]
  simp only []
  rw [if_neg (by simp [hne])]

theorem findOrig_role (names : List Str)
    (hall : ∀ e ∈ names, strLower e = "role".toList → e = "role".toList) :
    findOrig names "role".toList = "role".toList := by
  unfold findOrig
  cases hf : names.find? (fun e => strLower e == "role".toList) with
  | none => rfl
  | some e =>
      have hm := List.mem_of_find?_eq_some hf
      have hp := List.find?_some hf
      have he : e = "role".toList := hall e hm (by simpa using hp)
      subst he
      rfl

/-- The serialized form of the converted image of one well-formed source
attribute is exactly the source attribute's markup. -/
theorem emit_one (names : List Str) (nv : Str × Str) (hwf : wfAttName nv.1 = true)
    (hfind : findOrig names (strLower nv.1) = nv.1) :
    (convertOneAttr nv).flatMap (emitAttr names) = refAttr nv := by
  obtain ⟨n, v⟩ := nv
  simp only at hwf hfind ⊢
  by_cases h1 : n = "xmlns".toList
  · subst h1
    have hred : convertOneAttr ("xmlns".toList, v) = [("data-xmlns".toList, v)] := by
      unfold convertOneAttr
      dsimp only
      rw [if_pos rfl, if_neg (by decide), if_neg (by decide), if_neg (by decide),
        if_neg (by decide)]
      simp
    rw [hred, List.flatMap_cons, List.flatMap_nil, List.append_nil]
    unfold emitAttr
    dsimp only
    rw [if_neg (by decide), if_pos rfl, if_neg (by decide)]
    simp [refAttr]
  · by_cases h2 : n = "xml:id".toList
    · subst h2
      have hf : findOrig names "xml:id".toList = "xml:id".toList := by
        have h := hfind
        rw [show strLower "xml:id".toList = "xml:id".toList from by decide] at h
        exact h
      have hred : convertOneAttr ("xml:id".toList, v)
          = [("xml:id".toList, v), ("id".toList, v)] := by
        unfold convertOneAttr
        dsimp only
        rw [if_neg (by decide), if_pos (by decide), if_pos rfl, if_neg (by decide),
          if_neg (by decide), if_neg (by decide)]
        simp
        decide
      rw [hred, List.flatMap_cons, List.flatMap_cons, List.flatMap_nil, List.append_nil]
      have he2 : emitAttr names ("id".toList, v) = [] := by
        unfold emitAttr
        dsimp only
        rw [if_neg (by decide), if_neg (by decide), if_neg (by decide)]
        simp
      rw [he2, List.append_nil]
      unfold emitAttr
      dsimp only
      rw [if_pos (by decide), if_neg (by decide), if_neg (by decide)]
      rw [hf]
      simp [refAttr]
    · by_cases h3 : n = "xml:lang".toList
      · subst h3
        have hf : findOrig names "xml:lang".toList = "xml:lang".toList := by
          have h := hfind
          rw [show strLower "xml:lang".toList = "xml:lang".toList from by decide] at h
          exact h
        have hred : convertOneAttr ("xml:lang".toList, v)
            = [("xml:lang".toList, v), ("lang".toList, v)] := by
          unfold convertOneAttr
          dsimp only
          rw [if_neg (by decide), if_pos (by decide), if_neg (by decide), if_pos rfl,
            if_neg (by decide), if_neg (by decide)]
          simp
          decide
        rw [hred, List.flatMap_cons, List.flatMap_cons, List.flatMap_nil, List.append_nil]
        have he2 : emitAttr names ("lang".toList, v) = [] := by
          unfold emitAttr
          dsimp only
          rw [if_neg (by decide), if_neg (by decide), if_neg (by decide)]
          simp
        rw [he2, List.append_nil]
        unfold emitAttr
        dsimp only
        rw [if_pos (by decide), if_neg (by decide), if_neg (by decide)]
        rw [hf]
        simp [refAttr]
      · by_cases h4 : n = "rendition".toList
        · subst h4
          have hf : findOrig names "rendition".toList = "rendition".toList := by
            have h := hfind
            rw [show strLower "rendition".toList = "rendition".toList from by decide] at h
            exact h
          have hred : convertOneAttr ("rendition".toList, v)
              = [("rendition".toList, v),
                 ("class".toList, v.filter (fun c => ¬ c == '#'))] := by
            unfold convertOneAttr
            dsimp only
            rw [if_neg (by decide), if_pos (by decide), if_neg (by decide),
              if_neg (by decide), if_pos rfl, if_neg (by decide)]
            simp
            decide
          rw [hred, List.flatMap_cons, List.flatMap_cons, List.flatMap_nil,
            List.append_nil]
          have he2 : emitAttr names ("class".toList, v.filter (fun c => ¬ c == '#')) = [] := by
            unfold emitAttr
            dsimp only
            rw [if_neg (by decide), if_neg (by decide), if_neg (by decide)]
            simp
          rw [he2, List.append_nil]
          unfold emitAttr
          dsimp only
          rw [if_pos (by decide), if_neg (by decide), if_neg (by decide)]
          rw [hf]
          simp [refAttr]
        · by_cases h5 : n = "role".toList
          · subst h5
            have hf : findOrig names "role".toList = "role".toList := by
              have h := hfind
              rw [show strLower "role".toList = "role".toList from by decide] at h
              exact h
            have hred : convertOneAttr ("role".toList, v) = [("tei-role".toList, v)] := by
              unfold convertOneAttr
              dsimp only
              rw [if_neg (by decide), if_neg (by simp), if_neg (by decide),
                if_neg (by decide), if_neg (by decide), if_pos rfl]
              simp
            rw [hred, List.flatMap_cons, List.flatMap_nil, List.append_nil]
            unfold emitAttr
            dsimp only
            rw [if_neg (by decide), if_neg (by decide), if_pos (by decide)]
            rw [show replaceFirstL "tei-".toList [] "tei-role".toList = "role".toList
              from by decide]
            rw [hf]
            simp [refAttr]
          · obtain ⟨-, -, hd, ht, ha, hm⟩ := wfAttName_generic n hwf h1 h2 h3 h4 h5
            have hred : convertOneAttr (n, v) = [(strLower n, v)] := by
              unfold convertOneAttr
              dsimp only
              rw [if_neg h1, if_pos h5, if_neg h2, if_neg h3, if_neg h4, if_neg h5]
              simp
            rw [hred, List.flatMap_cons, List.flatMap_nil, List.append_nil]
            unfold emitAttr
            dsimp only
            rw [if_pos (by
              refine ⟨by rw [hd]; exact Bool.false_ne_true,
                by rw [ht]; exact Bool.false_ne_true,
                by rw [ha]; exact Bool.false_ne_true, ?_⟩
              intro hx
              apply hm
              simp only [List.mem_cons, List.not_mem_nil, or_false] at hx ⊢
              tauto), if_neg (by
              intro hx
              rw [hx] at hd
              exact absurd hd (by decide)), if_neg (by
              rw [ht]; exact Bool.false_ne_true)]
            rw [hfind]
            simp [refAttr]

/-- The provenance/landmark tail serializes to exactly the injected `role`
attribute (everything else is `data-*`/`aria-*` and suppressed). -/
theorem emit_prov (names : List Str) (anc : List XNode) (ns : Option Str) (nm : Str)
    (atts : List (Str × Str)) (cs : List XNode)
    (hrole : findOrig names "role".toList = "role".toList) :
    (provTail anc ns nm atts cs).flatMap (emitAttr names) = injectedRole nm := by
  have e_don : emitAttr names ("data-origname".toList, nm) = [] := by
    unfold emitAttr
    dsimp only
    rw [if_neg (by decide), if_neg (by decide), if_neg (by decide)]
    simp
  have e_oa : emitAttr names ("data-origatts".toList, joinSpace (atts.map Prod.fst)) = [] := by
    unfold emitAttr
    dsimp only
    rw [if_neg (by decide), if_neg (by decide), if_neg (by decide)]
    simp
  have e_de : emitAttr names ("data-empty".toList, ([] : Str)) = [] := by
    unfold emitAttr
    dsimp only
    rw [if_neg (by decide), if_neg (by decide), if_neg (by decide)]
    simp
  have e_dl : emitAttr names ("data-level".toList, (toString (getLevel anc)).toList) = [] := by
    unfold emitAttr
    dsimp only
    rw [if_neg (by decide), if_neg (by decide), if_neg (by decide)]
    simp
  have e_aria : emitAttr names ("aria-label".toList,
      jsOr (lookupA atts "xml:id".toList) (jsOr (lookupA atts "n".toList) nm)) = [] := by
    unfold emitAttr
    dsimp only
    rw [if_neg (by decide), if_neg (by decide), if_neg (by decide)]
    simp
  have e_main : emitAttr names ("role".toList, "main".toList) = " role=\"main\"".toList := by
    unfold emitAttr
    dsimp only
    rw [if_pos (by decide), if_neg (by decide), if_neg (by decide), hrole]
    decide
  have e_region : emitAttr names ("role".toList, "region".toList)
      = " role=\"region\"".toList := by
    unfold emitAttr
    dsimp only
    rw [if_pos (by decide), if_neg (by decide), if_neg (by decide), hrole]
    decide
  simp only [provTail, List.flatMap_append,
    apply_ite (fun l => List.flatMap l (emitAttr names)),
    List.flatMap_cons, List.flatMap_nil, List.append_nil]
  rw [e_don, e_oa, e_de, e_dl, e_aria, e_main, e_region]
  by_cases hD : nm = "TEI".toList
  · have hE : ¬ (nm = "body".toList ∨ nm = "front".toList ∨ nm = "back".toList
        ∨ nm = "div".toList) := by
      rw [hD]; decide
    simp only [String.toList] at hD hE
    simp [injectedRole, hD, hE, ite_self]
  · by_cases hE : nm = "body".toList ∨ nm = "front".toList ∨ nm = "back".toList
        ∨ nm = "div".toList
    · simp only [String.toList] at hD hE
      simp [injectedRole, hD, hE, ite_self]
    · simp only [String.toList] at hD hE
      simp [injectedRole, hD, hE, ite_self]

/- well-formedness of a source tree for the round-trip claim -/

/-- Attribute-list well-formedness: the generated converted keys are distinct,
the lower-cased source spellings are distinct, and every name is
round-trippable. -/
def wfAtts (atts : List (Str × Str)) : Bool :=
  decide ((flatKeys atts).Nodup)
    && decide ((atts.map (fun nv => strLower nv.1)).Nodup)
    && atts.all (fun nv => wfAttName nv.1)

theorem wfAtts_unpack (atts : List (Str × Str)) (h : wfAtts atts = true) :
    (flatKeys atts).Nodup ∧ ((atts.map (fun nv => strLower nv.1)).Nodup)
      ∧ ∀ nv ∈ atts, wfAttName nv.1 = true := by
  unfold wfAtts at h
  simp only [Bool.and_eq_true, decide_eq_true_eq, List.all_eq_true] at h
  exact ⟨h.1.1, h.1.2, h.2⟩

mutual
/-- Node well-formedness: every element's namespace is registered in the
namespace map and its attribute list is well-formed. -/
def wfNodeB (nsMap : List (Str × Str)) : XNode → Bool
  | .elem ns _ atts children =>
      containsKey nsMap (ns.getD []) && wfAtts atts && wfListB nsMap children
  | _ => true

def wfListB (nsMap : List (Str × Str)) : List XNode → Bool
  | [] => true
  | c :: rest => wfNodeB nsMap c && wfListB nsMap rest
end

theorem wf_role_spelling (n : Str) (h : wfAttName n = true)
    (hl : strLower n = "role".toList) : n = "role".toList := by
  by_cases h1 : n = "xmlns".toList
  · rw [h1] at hl; exact absurd hl (by decide)
  · by_cases h2 : n = "xml:id".toList
    · rw [h2] at hl; exact absurd hl (by decide)
    · by_cases h3 : n = "xml:lang".toList
      · rw [h3] at hl; exact absurd hl (by decide)
      · by_cases h4 : n = "rendition".toList
        · rw [h4] at hl; exact absurd hl (by decide)
        · by_cases h5 : n = "role".toList
          · exact h5
          · obtain ⟨-, -, -, -, -, hm⟩ := wfAttName_generic n h h1 h2 h3 h4 h5
            exact absurd (by rw [hl]; simp : strLower n ∈ ["id".toList, "lang".toList,
              "class".toList, "role".toList]) hm

theorem flat_emits (names : List Str) (atts : List (Str × Str))
    (hwf : ∀ nv ∈ atts, wfAttName nv.1 = true)
    (hfind : ∀ nv ∈ atts, findOrig names (strLower nv.1) = nv.1) :
    (atts.flatMap convertOneAttr).flatMap (emitAttr names)
      = (atts.map refAttr).flatten := by
  induction atts with
  | nil => rfl
  | cons a rest ih =>
      rw [List.flatMap_cons, List.flatMap_append,
        emit_one names a (hwf a (List.mem_cons_self a rest))
          (hfind a (List.mem_cons_self a rest)),
        List.map_cons, List.flatten_cons,
        ih (fun nv hnv => hwf nv (List.mem_cons_of_mem a hnv))
          (fun nv hnv => hfind nv (List.mem_cons_of_mem a hnv))]

theorem serAttrs_closed_elem (anc : List XNode) (ns : Option Str) (nm : Str)
    (atts : List (Str × Str)) (cs : List XNode) (hwfA : wfAtts atts = true) :
    serAttrs (origAttNames (atts.flatMap convertOneAttr ++ provTail anc ns nm atts cs))
        (atts.flatMap convertOneAttr ++ provTail anc ns nm atts cs)
      = (atts.map refAttr).flatten ++ injectedRole nm := by
  obtain ⟨hnd1, hnd2, hwf⟩ := wfAtts_unpack atts hwfA
  rw [cattrs_origAttNames anc ns nm atts cs hwf]
  by_cases hA : atts = []
  · subst hA
    rw [if_pos rfl]
    unfold serAttrs
    simp only [List.flatMap_nil, List.nil_append, List.map_nil, List.flatten_nil]
    exact emit_prov [] anc ns nm [] cs (by decide)
  · rw [if_neg hA]
    unfold serAttrs
    rw [List.flatMap_append]
    have hnd2' : ((atts.map Prod.fst).map strLower).Nodup := by
      rw [List.map_map]
      exact hnd2
    have hfind : ∀ nv ∈ atts, findOrig (atts.map Prod.fst) (strLower nv.1) = nv.1 := by
      intro nv hnv
      exact findOrig_self _ hnd2' nv.1 (List.mem_map_of_mem Prod.fst hnv)
        ((wfAttName_shape nv.1 (hwf nv hnv)).1)
    have hrole : findOrig (atts.map Prod.fst) "role".toList = "role".toList := by
      apply findOrig_role
      intro e he hle
      obtain ⟨nv, hnv, hk⟩ := List.mem_map.mp he
      rw [← hk] at hle ⊢
      exact wf_role_spelling nv.1 (hwf nv hnv) hle
    rw [flat_emits _ atts hwf hfind, emit_prov _ anc ns nm atts cs hrole]

theorem wsOpen_undef : wsOpen .undef = ['<'] := rfl

theorem wsClose_undef : wsClose .undef = ['<', '/'] := rfl

theorem childWs_undef : childWs .undef = .undef := rfl

theorem cloneKids_style (sk rest : List CNode) :
    cloneKids (CNode.elem "style".toList [] sk :: rest) = cloneKids rest := rfl

theorem cloneKids_keep (t : Str) (a : List (Str × Str)) (c rest : List CNode)
    (h1 : containsKey a "data-original".toList = false)
    (h2 : containsKey a "data-origname".toList = true) :
    cloneKids (CNode.elem t a c :: rest)
      = cloneReset (CNode.elem t a c) :: cloneKids rest := by
  rw [cloneKids]
  simp only [String.toList] at h1
  rw [if_neg (by simp [h1]), if_pos h2]

theorem cloneKids_text (s : Str) (rest : List CNode) :
    cloneKids (CNode.text s :: rest) = CNode.text s :: cloneKids rest := rfl

theorem cloneKids_comment (s : Str) (rest : List CNode) :
    cloneKids (CNode.comment s :: rest) = CNode.comment s :: cloneKids rest := rfl

theorem cloneKids_procInst (t v : Str) (rest : List CNode) :
    cloneKids (CNode.procInst t v :: rest) = CNode.procInst t v :: cloneKids rest := rfl

theorem convertEl_elem_eq (nsMap : List (Str × Str)) (anc : List XNode)
    (ns : Option Str) (nm : Str) (atts : List (Str × Str)) (children : List XNode)
    (hns : containsKey nsMap (ns.getD []) = true) :
    convertEl nsMap anc (.elem ns nm atts children)
      = CNode.elem (strLower (((lookupA nsMap (ns.getD [])).getD []) ++ '-' :: strLower nm))
          (convAttrs anc ns nm atts children [])
          ((if !(if nm = "tagsDecl".toList then styleRules children else []).isEmpty
              then [CNode.elem "style".toList []
                     (if nm = "tagsDecl".toList then styleRules children else [])]
            else [])
            ++ convertChildren nsMap (XNode.elem ns nm atts children :: anc) children) := by
  simp only [convertEl]
  rw [if_pos hns, if_pos hns]

theorem cloneKids_conv_cons (nsMap : List (Str × Str)) (anc : List XNode)
    (c : XNode) (cs : List XNode) (hw : wfNodeB nsMap c = true) :
    ∃ k ks, cloneKids (convertChildren nsMap anc (c :: cs)) = k :: ks := by
  cases c with
  | text s => exact ⟨_, _, rfl⟩
  | comment s => exact ⟨_, _, rfl⟩
  | procInst t v => exact ⟨_, _, rfl⟩
  | elem ns nm atts kids =>
      simp only [wfNodeB, Bool.and_eq_true] at hw
      obtain ⟨⟨hns, hwfA⟩, -⟩ := hw
      obtain ⟨hnd1, hnd2, hwfn⟩ := wfAtts_unpack atts hwfA
      rw [convertChildren, convertEl_elem_eq nsMap anc ns nm atts kids hns,
        convAttrs_closed anc ns nm atts kids hnd1 hwfn,
        cloneKids_keep _ _ _ _ (cattrs_no_original anc ns nm atts kids hwfn)
          (cattrs_has_origname anc ns nm atts kids)]
      exact ⟨_, _, rfl⟩

theorem serialize_elem_nil (tag : Str) (attrs : List (Str × Str)) (ws : WSArg) :
    serialize (.elem tag attrs []) false ws = serializeOpen attrs ws ++ "/>".toList := by
  simp [serialize, serializeChildren]

theorem serialize_elem_cons (tag : Str) (attrs : List (Str × Str)) (k : CNode)
    (ks : List CNode) (ws : WSArg) :
    serialize (.elem tag attrs (k :: ks)) false ws
      = serializeOpen attrs ws ++ ">".toList
        ++ serializeChildren (k :: ks) false false ws
        ++ wsClose ws ++ dataOrigname attrs ++ ">".toList := by
  simp [serialize]

theorem elem_roundtrip (nsMap : List (Str × Str)) (anc : List XNode)
    (ns : Option Str) (nm : Str) (atts : List (Str × Str)) (children : List XNode)
    (hns : containsKey nsMap (ns.getD []) = true)
    (hwfA : wfAtts atts = true)
    (hclone : children = [] ∨
      ∃ k ks, cloneKids (convertChildren nsMap (XNode.elem ns nm atts children :: anc)
        children) = k :: ks)
    (hkids : serializeChildren
        (cloneKids (convertChildren nsMap (XNode.elem ns nm atts children :: anc) children))
        false false WSArg.undef = refSerializeList true children) :
    serialize (cloneReset (convertEl nsMap anc (.elem ns nm atts children)))
        false WSArg.undef
      = refSerialize true (.elem ns nm atts children) := by
  obtain ⟨hnd1, hnd2, hwf⟩ := wfAtts_unpack atts hwfA
  have hcat := convAttrs_closed anc ns nm atts children hnd1 hwf
  rw [convertEl_elem_eq nsMap anc ns nm atts children hns]
  rw [cloneReset]
  rw [hcat]
  rw [refold_id (atts.flatMap convertOneAttr ++ provTail anc ns nm atts children) []
    (cattrs_entry_facts anc ns nm atts children hwf)
    (cattrs_keys_nodup anc ns nm atts children hnd1 hwf)
    (fun nv _ => rfl), List.nil_append]
  have hstyle : cloneKids
      ((if !(if nm = "tagsDecl".toList then styleRules children else []).isEmpty
          then [CNode.elem "style".toList []
                 (if nm = "tagsDecl".toList then styleRules children else [])] else [])
        ++ convertChildren nsMap (XNode.elem ns nm atts children :: anc) children)
      = cloneKids (convertChildren nsMap (XNode.elem ns nm atts children :: anc)
          children) := by
    by_cases hs : (if nm = "tagsDecl".toList then styleRules children else []).isEmpty = true
    · rw [if_neg (by rw [hs]; decide), List.nil_append]
    · rw [if_pos (by rw [Bool.of_not_eq_true hs]; decide), List.singleton_append]
      exact cloneKids_style _ _
  rw [hstyle]
  cases children with
  | nil =>
      have hconvnil : convertChildren nsMap (XNode.elem ns nm atts [] :: anc) [] = [] := rfl
      have hcknil : cloneKids ([] : List CNode) = [] := rfl
      rw [hconvnil, hcknil, serialize_elem_nil]
      rw [serializeOpen, wsOpen_undef,
        cattrs_dataOrigname anc ns nm atts [] hwf,
        serAttrs_closed_elem anc ns nm atts [] hwfA]
      simp only [refSerialize, List.isEmpty_nil, if_true]
      simp [List.append_assoc]
  | cons c crest =>
      obtain ⟨k, ks, hk⟩ := hclone.resolve_left (by simp)
      rw [hk, serialize_elem_cons, ← hk, hkids]
      rw [serializeOpen, wsOpen_undef, wsClose_undef,
        cattrs_dataOrigname anc ns nm atts (c :: crest) hwf,
        serAttrs_closed_elem anc ns nm atts (c :: crest) hwfA]
      simp only [refSerialize, List.isEmpty_cons, if_false]
      simp [List.append_assoc]

theorem serializeChildren_cons_elem (t : Str) (a : List (Str × Str)) (k rest : List CNode)
    (isR sE : Bool) (ws : WSArg) :
    serializeChildren (CNode.elem t a k :: rest) isR sE ws
      = serialize (.elem t a k) false (childWs ws) ++ serializeChildren rest isR sE ws := rfl

theorem serializeChildren_cons_text (s : Str) (rest : List CNode) :
    serializeChildren (CNode.text s :: rest) false false WSArg.undef
      = s ++ serializeChildren rest false false WSArg.undef := rfl

theorem serializeChildren_cons_comment (v : Str) (rest : List CNode) :
    serializeChildren (CNode.comment v :: rest) false false WSArg.undef
      = ("<!--".toList ++ v ++ "-->".toList)
        ++ serializeChildren rest false false WSArg.undef := by
  rw [serializeChildren]
  simp [List.append_assoc]

theorem serializeChildren_cons_procInst (nmv v : Str) (rest : List CNode) :
    serializeChildren (CNode.procInst nmv v :: rest) false false WSArg.undef
      = ('<' :: '?' :: nmv ++ ' ' :: v ++ ['?', '>'])
        ++ serializeChildren rest false false WSArg.undef := by
  rw [serializeChildren]
  simp [List.append_assoc]

mutual
/-- Round trip of one well-formed element: convert, reset-clone, serialize. -/
theorem c1_elem (nsMap : List (Str × Str)) (anc : List XNode) (ns : Option Str)
    (nm : Str) (atts : List (Str × Str)) (children : List XNode)
    (h : wfNodeB nsMap (.elem ns nm atts children) = true) :
    serialize (cloneReset (convertEl nsMap anc (.elem ns nm atts children)))
        false WSArg.undef
      = refSerialize true (.elem ns nm atts children) := by
  have h' := h
  simp only [wfNodeB, Bool.and_eq_true] at h'
  obtain ⟨⟨hns, hwfA⟩, hwL⟩ := h'
  apply elem_roundtrip nsMap anc ns nm atts children hns hwfA
  · cases children with
    | nil => exact Or.inl rfl
    | cons c crest =>
        refine Or.inr (cloneKids_conv_cons nsMap _ c crest ?_)
        simp only [wfListB, Bool.and_eq_true] at hwL
        exact hwL.1
  · exact c1_list nsMap (XNode.elem ns nm atts children :: anc) children hwL
termination_by sizeOf (XNode.elem ns nm atts children)

/-- Round trip of a well-formed child sequence. -/
theorem c1_list (nsMap : List (Str × Str)) (anc : List XNode) (cs : List XNode)
    (h : wfListB nsMap cs = true) :
    serializeChildren (cloneKids (convertChildren nsMap anc cs)) false false WSArg.undef
      = refSerializeList true cs := by
  cases cs with
  | nil => rfl
  | cons c crest =>
      simp only [wfListB, Bool.and_eq_true] at h
      obtain ⟨hc, hrest⟩ := h
      cases c with
      | elem ns nm atts kids =>
          have hw := hc
          simp only [wfNodeB, Bool.and_eq_true] at hw
          obtain ⟨⟨hns, hwfA⟩, -⟩ := hw
          obtain ⟨hnd1, -, hwfn⟩ := wfAtts_unpack atts hwfA
          have hrec := c1_elem nsMap anc ns nm atts kids hc
          rw [convertChildren, convertEl_elem_eq nsMap anc ns nm atts kids hns,
            convAttrs_closed anc ns nm atts kids hnd1 hwfn,
            cloneKids_keep _ _ _ _ (cattrs_no_original anc ns nm atts kids hwfn)
              (cattrs_has_origname anc ns nm atts kids),
            cloneReset, serializeChildren_cons_elem, childWs_undef]
          rw [convertEl_elem_eq nsMap anc ns nm atts kids hns,
            convAttrs_closed anc ns nm atts kids hnd1 hwfn, cloneReset] at hrec
          rw [hrec, c1_list nsMap anc crest hrest]
          rfl
      | text s =>
          rw [convertChildren]
          rw [show convertEl nsMap anc (.text s) = CNode.text s from rfl]
          rw [cloneKids_text, serializeChildren_cons_text,
            c1_list nsMap anc crest hrest]
          rfl
      | comment s =>
          rw [convertChildren]
          rw [show convertEl nsMap anc (.comment s) = CNode.comment s from rfl]
          rw [cloneKids_comment, serializeChildren_cons_comment,
            c1_list nsMap anc crest hrest]
          rfl
      | procInst t v =>
          rw [convertChildren]
          rw [show convertEl nsMap anc (.procInst t v) = CNode.procInst t v from rfl]
          rw [cloneKids_procInst, serializeChildren_cons_procInst,
            c1_list nsMap anc crest hrest]
          rfl
termination_by sizeOf cs
end

/-- Claim C1 (amended): for every well-formed source element — namespaces all
registered in the learned map, attribute names round-trippable with distinct
converted keys and distinct lower-casings — converting the tree and then
calling `resetAndSerialize` on the converted result reproduces the original
tag names, the original attribute names and values in source order (with
`data-xmlns` restored as an `xmlns` declaration and `tei-role` restored as
`role`), and the original text, comment and processing-instruction content —
except that the landmark elements `TEI`, `body`, `front`, `back` and `div`
additionally carry the conversion's injected `role="main"`/`role="region"`
attribute, which the serializer does not filter out (see the
counterexample). -/
theorem c1_roundtrip_amended (nsMap : List (Str × Str)) (ns : Option Str) (nm : Str)
    (atts : List (Str × Str)) (children : List XNode)
    (h : wfNodeB nsMap (.elem ns nm atts children) = true) :
    roundTrip nsMap (.elem ns nm atts children)
      = refSerialize true (.elem ns nm atts children) := by
  unfold roundTrip resetAndSerialize copyAndReset
  exact c1_elem nsMap [] ns nm atts children h

/-- Witness for the amended C1 round trip: a TEI root with an `xml:id`, a
`role` attribute, a text child and an empty landmark `div` child satisfies the
well-formedness hypothesis, and the theorem applies. -/
theorem c1_roundtrip_amended_witness :
    wfNodeB [(teiNS, "tei".toList)]
        (.elem (some teiNS) "TEI".toList
          [("xml:id".toList, "doc1".toList), ("role".toList, "primary".toList)]
          [.text "hi".toList,
           .elem (some teiNS) "div".toList [("n".toList, "1".toList)] []]) = true
    ∧ roundTrip [(teiNS, "tei".toList)]
        (.elem (some teiNS) "TEI".toList
          [("xml:id".toList, "doc1".toList), ("role".toList, "primary".toList)]
          [.text "hi".toList,
           .elem (some teiNS) "div".toList [("n".toList, "1".toList)] []])
      = refSerialize true
        (.elem (some teiNS) "TEI".toList
          [("xml:id".toList, "doc1".toList), ("role".toList, "primary".toList)]
          [.text "hi".toList,
           .elem (some teiNS) "div".toList [("n".toList, "1".toList)] []]) :=
  ⟨by decide, c1_roundtrip_amended _ _ _ _ _ (by decide)⟩
